import Mathlib

/-!
Verification development for two components of a buffer-management layer:
a LRU-K frame-eviction tracker (`lru_k_replacer.cpp`) and an extendible
hash table (`extendible_hash_table.cpp`).  Each C++ function is embedded
as an executable Lean definition over an explicit state record; stateful
mutation becomes state passing, the `std::unordered_map` becomes an
association list (unique keys are an invariant of reachable states), and
the two `std::list` recency sequences become Lean lists whose head is the
most-recently-inserted node.  `list.erase(it_)` on a node iterator is
embedded as erasing the frame identifier from the corresponding list,
which agrees with the C++ on every state where the identifier occurs at
most once (an invariant of reachable states).
-/

namespace LruK

/-- Modelled from the spec: the per-frame record `FrameEntity` is declared in
`lru_k_replacer.h`, which is not part of the sources; its fields
(`hit_count_`, `evictable_`, and the list-iterator `it_`) are reconstructed
from their uses in `lru_k_replacer.cpp` and from the spec's
`FrameRecord { id, access_count, evictable, list_position }`.  The iterator
field is represented implicitly: the record's position is the (unique)
occurrence of its frame id in whichever recency list holds it. -/
structure FrameEntity where
  hit_count : Nat
  evictable : Bool
  deriving DecidableEq, Repr

/-- State of `LRUKReplacer`: capacity and `k` from the constructor, the two
recency lists (`hist_list_`, `cache_list_`, head = most recent), the frame
map `frame_entities_` as an association list, and `curr_size_`. -/
structure Replacer where
  replacer_size : Nat
  k : Nat
  hist : List Nat
  cache : List Nat
  entities : List (Nat × FrameEntity)
  curr_size : Nat
  deriving DecidableEq, Repr

/-- `frame_entities_.find(id)`: first entry with the given key. -/
def lookupE (id : Nat) : List (Nat × FrameEntity) → Option FrameEntity
  | [] => none
  | p :: t => if p.1 = id then some p.2 else lookupE id t

/-- In-place mutation of the entity stored under `id` (C++ mutates
`entity->second`); rewrites every entry with that key, which is the single
entry on states with unique keys. -/
def updE (id : Nat) (e : FrameEntity) : List (Nat × FrameEntity) → List (Nat × FrameEntity)
  | [] => []
  | p :: t => if p.1 = id then (id, e) :: updE id e t else p :: updE id e t

/-- `frame_entities_.erase(id)`. -/
def delE (id : Nat) : List (Nat × FrameEntity) → List (Nat × FrameEntity)
  | [] => []
  | p :: t => if p.1 = id then delE id t else p :: delE id t

/-- Number of tracked records whose evictable flag is set. -/
def evictCount (ents : List (Nat × FrameEntity)) : Nat :=
  (ents.filter (fun p => p.2.evictable)).length

/-- `LRUKReplacer(num_frames, k)`: all containers empty, `curr_size_ = 0`. -/
def initL (n k : Nat) : Replacer :=
  { replacer_size := n, k := k, hist := [], cache := [], entities := [], curr_size := 0 }

/-- Shared tail of `RecordAccess` after the entity exists: increment
`hit_count_`, then on `hit_count_ == k_` move the node from `hist_list_` to
the front of `cache_list_`, and on `hit_count_ > k_` re-insert it at the
front of `cache_list_`. -/
def touch (s : Replacer) (id : Nat) (e : FrameEntity) : Replacer :=
  let e1 : FrameEntity := { e with hit_count := e.hit_count + 1 }
  let s2 := { s with entities := updE id e1 s.entities }
  if e1.hit_count = s2.k then
    { s2 with hist := s2.hist.erase id, cache := id :: s2.cache }
  else if s2.k < e1.hit_count then
    { s2 with cache := id :: s2.cache.erase id }
  else s2

/-- `LRUKReplacer::RecordAccess`.  The out-of-range test is the source's
`static_cast<size_t>(frame_id) > replacer_size_` (strictly greater; the cast
sends negative `frame_id_t` values to naturals far above any capacity, so
frame ids are embedded as the cast's value).  An unknown frame is created
with `hit_count_ = 0`, `evictable_ = true` at the front of `hist_list_`,
with `curr_size_++`. -/
def recordAccess (s : Replacer) (id : Nat) : Replacer :=
  if s.replacer_size < id then s
  else
    match lookupE id s.entities with
    | none =>
        let s1 := { s with hist := id :: s.hist,
                           entities := (id, ⟨0, true⟩) :: s.entities,
                           curr_size := s.curr_size + 1 }
        touch s1 id ⟨0, true⟩
    | some e => touch s id e

/-- `LRUKReplacer::SetEvictable`: no-op when out of range (same strict test)
or unknown; adjusts `curr_size_` on an actual transition, then stores the
flag. -/
def setEvictable (s : Replacer) (id : Nat) (flag : Bool) : Replacer :=
  if s.replacer_size < id then s
  else
    match lookupE id s.entities with
    | none => s
    | some e =>
        let s1 :=
          if e.evictable && !flag then { s with curr_size := s.curr_size - 1 }
          else if !e.evictable && flag then { s with curr_size := s.curr_size + 1 }
          else s
        { s1 with entities := updE id { e with evictable := flag } s1.entities }

/-- `LRUKReplacer::Remove`: no-op when out of range, unknown, or not
evictable; otherwise erase the node from `hist_list_` when
`hit_count_ < k_`, else from `cache_list_`, decrement `curr_size_`, and
erase the map entry. -/
def removeL (s : Replacer) (id : Nat) : Replacer :=
  if s.replacer_size < id then s
  else
    match lookupE id s.entities with
    | none => s
    | some e =>
        if e.evictable = false then s
        else if e.hit_count < s.k then
          { s with hist := s.hist.erase id, entities := delE id s.entities,
                   curr_size := s.curr_size - 1 }
        else
          { s with cache := s.cache.erase id, entities := delE id s.entities,
                   curr_size := s.curr_size - 1 }

/-- One reverse scan of `Evict` (`rbegin()` to `rend()`, so the input list is
reversed before the scan): `some (some id)` means an evictable record `id`
was found; `some none` means the scan hit an id with no map entry and the
whole call returns failure immediately; `none` means the scan completed
without a candidate. -/
def scanEv (ents : List (Nat × FrameEntity)) : List Nat → Option (Option Nat)
  | [] => none
  | id :: t =>
      match lookupE id ents with
      | none => some none
      | some e => if e.evictable then some (some id) else scanEv ents t

/-- The predicate the `Evict` scans test: the frame has a map entry and its
evictable flag is set. -/
def isEvict (ents : List (Nat × FrameEntity)) (id : Nat) : Bool :=
  match lookupE id ents with
  | some e => e.evictable
  | none => false

/-- Result of `LRUKReplacer::Evict`: the boolean-success result (`found`),
the value written through the caller's `frame_id_t *` out-pointer (`none`
when the callee only nulls its local copy of the pointer), and the
post-state. -/
structure EvictOut where
  found : Option Nat
  written : Option Nat
  state : Replacer
  deriving DecidableEq, Repr

/-- `LRUKReplacer::Evict`: failure when `curr_size_ <= 0`; otherwise a
tail-to-head scan of `hist_list_`, then of `cache_list_`.  On success the
node is erased from its list, the map entry erased, `curr_size_`
decremented, and `*frame_id = id` is executed.  On every failure path the
source assigns `frame_id = nullptr`, which overwrites only the callee's
local pointer, so nothing is written through the pointer. -/
def evictFull (s : Replacer) : EvictOut :=
  if s.curr_size = 0 then ⟨none, none, s⟩
  else
    match (if s.hist.isEmpty then none else scanEv s.entities s.hist.reverse) with
    | some none => ⟨none, none, s⟩
    | some (some id) =>
        ⟨some id, some id,
          { s with hist := s.hist.erase id, entities := delE id s.entities,
                   curr_size := s.curr_size - 1 }⟩
    | none =>
        match (if s.cache.isEmpty then none else scanEv s.entities s.cache.reverse) with
        | some none => ⟨none, none, s⟩
        | some (some id) =>
            ⟨some id, some id,
              { s with cache := s.cache.erase id, entities := delE id s.entities,
                       curr_size := s.curr_size - 1 }⟩
        | none => ⟨none, none, s⟩

/-- `Evict` as seen by the caller through its return value and out-parameter
slot: the returned frame (when successful) and the post-state. -/
def evictL (s : Replacer) : Option Nat × Replacer :=
  ((evictFull s).found, (evictFull s).state)

/-- Value of the caller's `frame_id_t` variable after `Evict(&var)` given its
prior value `v`: it changes only through a write through the pointer. -/
def evictCallerVar (s : Replacer) (v : Nat) : Nat :=
  match (evictFull s).written with
  | some w => w
  | none => v

/-- `LRUKReplacer::Size`. -/
def sizeL (s : Replacer) : Nat := s.curr_size

/-- States reachable from a freshly constructed replacer by the public
operations. -/
inductive ReachL : Replacer → Prop
  | init (n k : Nat) : ReachL (initL n k)
  | record (s : Replacer) (id : Nat) : ReachL s → ReachL (recordAccess s id)
  | setEv (s : Replacer) (id : Nat) (f : Bool) : ReachL s → ReachL (setEvictable s id f)
  | rem (s : Replacer) (id : Nat) : ReachL s → ReachL (removeL s id)
  | evict (s : Replacer) : ReachL s → ReachL (evictL s).2

/-- Keys of the frame map are pairwise distinct (the C++ map cannot hold two
entries with one key). -/
def keysNodup (ents : List (Nat × FrameEntity)) : Prop :=
  (ents.map Prod.fst).Nodup

/-- Bookkeeping invariant that holds for every `k`: `curr_size_` counts the
evictable records and the frame map has unique keys. -/
def InvSize (s : Replacer) : Prop :=
  s.curr_size = evictCount s.entities ∧ keysNodup s.entities

/-- Structural invariant of reachable states (for `k ≥ 1`): the two recency
lists are disjoint and duplicate-free, `hist` holds exactly the tracked
frames with fewer than `k` accesses, `cache` those with at least `k`, and
every tracked frame is on one of the two lists. -/
def InvK (s : Replacer) : Prop :=
  (s.hist ++ s.cache).Nodup ∧
  (∀ id ∈ s.hist, ∃ e, lookupE id s.entities = some e ∧ e.hit_count < s.k) ∧
  (∀ id ∈ s.cache, ∃ e, lookupE id s.entities = some e ∧ s.k ≤ e.hit_count) ∧
  (∀ id ∈ s.entities.map Prod.fst, id ∈ s.hist ∨ id ∈ s.cache)

end LruK

namespace ExtHash

/-- A bucket of `ExtendibleHashTable`: configured capacity (`size_`), local
depth (`depth_`), and the entry list (`list_`).  The C++ constructor
defaults the depth to 0 (the spec: "buckets are created on construction
(one bucket, depth 0)"). -/
structure Bucket (K V : Type) where
  size : Nat
  depth : Nat
  list : List (K × V)
  deriving DecidableEq, Repr

/-- State of `ExtendibleHashTable`: `global_depth_`, `bucket_size_`,
`num_buckets_`, and the directory `dir_` of shared bucket references.
Shared ownership (`std::shared_ptr<Bucket>`) is embedded as a store of
bucket objects addressed by index: two directory slots alias one bucket
exactly when they hold the same store index, and mutation through one slot
is mutation of the store cell.  Retired buckets simply stay unreferenced in
the store. -/
structure Table (K V : Type) where
  global_depth : Nat
  bucket_size : Nat
  num_buckets : Nat
  store : List (Bucket K V)
  dir : List Nat
  deriving DecidableEq, Repr

variable {K V : Type} [DecidableEq K]

/-- `ExtendibleHashTable(bucket_size)`: depth 0, one empty bucket,
`num_buckets_ = 1`. -/
def newTable (K V : Type) (sz : Nat) : Table K V :=
  { global_depth := 0, bucket_size := sz, num_buckets := 1,
    store := [⟨sz, 0, []⟩], dir := [0] }

/-- `IndexOf`: the key's hash masked to the low `global_depth_` bits.  The
hash function (`std::hash<K>`) is a parameter of the embedding; the
repository instantiates the template at integer and pointer keys, whose
standard hash is the identity on the numeric value. -/
def indexOf (hash : K → Nat) (s : Table K V) (key : K) : Nat :=
  hash key &&& (2 ^ s.global_depth - 1)

/-- The store index held by directory slot `i` (`dir_[i]` as a reference). -/
def dirIdx (s : Table K V) (i : Nat) : Nat := s.dir.getD i 0

/-- The bucket object referenced by directory slot `i`. -/
def bucketAt (s : Table K V) (i : Nat) : Bucket K V :=
  s.store.getD (dirIdx s i) ⟨0, 0, []⟩

/-- `Bucket::Find`: linear scan for the first entry with the key. -/
def bucketFind : List (K × V) → K → Option V
  | [], _ => none
  | e :: t, k => if e.1 = k then some e.2 else bucketFind t k

/-- `Bucket::Remove`: delete the first entry with the key; `none` when the
key is absent (the C++ returns `false` and leaves the list unchanged). -/
def bucketRemove : List (K × V) → K → Option (List (K × V))
  | [], _ => none
  | e :: t, k => if k = e.1 then some t else (bucketRemove t k).map (e :: ·)

/-- The overwrite loop of `Bucket::Insert`: replace the value of the first
entry with the key; `none` when the key is absent. -/
def bucketOverwrite : List (K × V) → K → V → Option (List (K × V))
  | [], _, _ => none
  | e :: t, k, v => if e.1 = k then some ((e.1, v) :: t) else (bucketOverwrite t k v).map (e :: ·)

/-- `Bucket::Insert`.  Modelled from the spec: `Bucket::IsFull` is declared
only in the header (not among the sources); per the spec an entry is
appended only "if the bucket has spare capacity", so the bucket is full
exactly when its entry count has reached the configured capacity. -/
def bucketInsert (b : Bucket K V) (k : K) (v : V) : Bool × Bucket K V :=
  match bucketOverwrite b.list k v with
  | some l => (true, { b with list := l })
  | none =>
      if b.size ≤ b.list.length then (false, b)
      else (true, { b with list := b.list ++ [(k, v)] })

/-- `ExtendibleHashTable::Find`. -/
def findT (hash : K → Nat) (s : Table K V) (key : K) : Option V :=
  bucketFind (bucketAt s (indexOf hash s key)).list key

/-- `ExtendibleHashTable::Remove`: delegates to the referenced bucket;
mutation through the shared reference updates the store cell. -/
def removeT (hash : K → Nat) (s : Table K V) (key : K) : Bool × Table K V :=
  let idx := indexOf hash s key
  let b := bucketAt s idx
  match bucketRemove b.list key with
  | some l => (true, { s with store := s.store.set (dirIdx s idx) { b with list := l } })
  | none => (false, s)

/-- The split sequence of `InsertInternal` after a failed bucket insert at
directory slot `idx`: double the directory when the bucket's local depth
equals the global depth, create two buckets of depth `old + 1`, partition
the full bucket's entries by `IndexOf(key) & split_mask`, and repoint every
slot that aliased the full bucket. -/
def splitStep (hash : K → Nat) (s : Table K V) (idx : Nat) : Table K V :=
  let b := bucketAt s idx
  let s1 := if s.global_depth = b.depth
            then { s with global_depth := s.global_depth + 1, dir := s.dir ++ s.dir }
            else s
  let newDepth := b.depth + 1
  let baseMask := 2 ^ b.depth - 1
  let splitMask := 2 ^ newDepth - 1
  let lowIndex := idx &&& baseMask
  let l1 := b.list.filter (fun e => indexOf hash s1 e.1 &&& splitMask == lowIndex)
  let l2 := b.list.filter (fun e => !(indexOf hash s1 e.1 &&& splitMask == lowIndex))
  { global_depth := s1.global_depth, bucket_size := s.bucket_size,
    num_buckets := s.num_buckets + 1,
    store := s1.store ++ [⟨s.bucket_size, newDepth, l1⟩, ⟨s.bucket_size, newDepth, l2⟩],
    dir := (List.range s1.dir.length).map (fun i =>
      if i &&& baseMask = lowIndex then
        (if i &&& splitMask = lowIndex then s1.store.length else s1.store.length + 1)
      else s1.dir.getD i 0) }

/-- `ExtendibleHashTable::InsertInternal`, with explicit recursion fuel:
`none` means the real recursion has not terminated within `fuel` split
rounds (the C++ has no fuel and simply recurses). -/
def insertInternal (hash : K → Nat) : Nat → Table K V → K → V → Option (Table K V)
  | 0, _, _, _ => none
  | fuel + 1, s, key, value =>
      let idx := indexOf hash s key
      let b := bucketAt s idx
      match bucketInsert b key value with
      | (true, b') => some { s with store := s.store.set (dirIdx s idx) b' }
      | (false, _) => insertInternal hash fuel (splitStep hash s idx) key value

/-- `Insert(key, value)` terminates: some amount of fuel suffices. -/
def InsertTerminates (hash : K → Nat) (s : Table K V) (key : K) (v : V) : Prop :=
  ∃ fuel, (insertInternal hash fuel s key v).isSome

/-- Structural invariant of reachable tables: the directory has `2 ^
global_depth` slots holding valid store indices; every referenced bucket
has local depth at most the global depth and configured capacity
`bucket_size`, holds at most that many entries with pairwise distinct keys
agreeing with the slot on the low `depth` bits of their hash; and two slots
alias one bucket exactly when they agree on those low bits. -/
def Inv (hash : K → Nat) (s : Table K V) : Prop :=
  s.dir.length = 2 ^ s.global_depth ∧
  (∀ i < s.dir.length, dirIdx s i < s.store.length) ∧
  (∀ i < s.dir.length, (bucketAt s i).depth ≤ s.global_depth) ∧
  (∀ i < s.dir.length, ∀ j < s.dir.length,
    i % 2 ^ (bucketAt s i).depth = j % 2 ^ (bucketAt s i).depth → dirIdx s i = dirIdx s j) ∧
  (∀ i < s.dir.length, ∀ j < s.dir.length,
    dirIdx s i = dirIdx s j → i % 2 ^ (bucketAt s i).depth = j % 2 ^ (bucketAt s i).depth) ∧
  (∀ i < s.dir.length, ∀ e ∈ (bucketAt s i).list,
    hash e.1 % 2 ^ (bucketAt s i).depth = i % 2 ^ (bucketAt s i).depth) ∧
  (∀ i < s.dir.length, (bucketAt s i).size = s.bucket_size ∧
    (bucketAt s i).list.length ≤ s.bucket_size ∧
    ((bucketAt s i).list.map Prod.fst).Nodup)

/-- Tables reachable from a freshly constructed table by completed inserts
and removes. -/
inductive ReachH (hash : K → Nat) : Table K V → Prop
  | init (sz : Nat) : ReachH hash (newTable K V sz)
  | insert (s s' : Table K V) (fuel : Nat) (key : K) (v : V) :
      ReachH hash s → insertInternal hash fuel s key v = some s' → ReachH hash s'
  | remove (s : Table K V) (key : K) : ReachH hash s → ReachH hash (removeT hash s key).2

/-- The concrete run of the C8 scenario: bucket capacity 2, identity hash
(`std::hash<int>` on the tested instantiation), inserting the keys 1, 3, 5,
whose hashes all collide on bit 0 and do not all agree on bit 1. -/
def c8run : Option (Table Nat Nat) :=
  (insertInternal (fun n => n) 5 (newTable Nat Nat 2) 1 10).bind (fun s =>
  (insertInternal (fun n => n) 5 s 3 30).bind (fun s =>
  insertInternal (fun n => n) 5 s 5 50))

end ExtHash

namespace LruK

theorem lookupE_eq_none_iff {id : Nat} {l : List (Nat × FrameEntity)} :
    lookupE id l = none ↔ id ∉ l.map Prod.fst := by
  induction l with
  | nil => simp [lookupE]
  | cons p t ih =>
      by_cases h : p.1 = id
      · simp [lookupE, h]
      · have h2 : id ≠ p.1 := fun he => h he.symm
        simp [lookupE, h, ih, h2]

theorem lookupE_isSome_of_mem {p : Nat × FrameEntity} {l : List (Nat × FrameEntity)}
    (h : p ∈ l) : ∃ e, lookupE p.1 l = some e := by
  induction l with
  | nil => simp at h
  | cons q t ih =>
      rcases List.mem_cons.mp h with h | h
      · exact ⟨q.2, by rw [h]; simp [lookupE]⟩
      · by_cases hq : q.1 = p.1
        · exact ⟨q.2, by simp [lookupE, hq]⟩
        · simpa [lookupE, hq] using ih h

theorem lookupE_of_mem_nodup {p : Nat × FrameEntity} {l : List (Nat × FrameEntity)}
    (hn : keysNodup l) (h : p ∈ l) : lookupE p.1 l = some p.2 := by
  induction l with
  | nil => simp at h
  | cons q t ih =>
      rcases List.nodup_cons.mp hn with ⟨hq, ht⟩
      rcases List.mem_cons.mp h with h | h
      · rw [h]; simp [lookupE]
      · have hne : q.1 ≠ p.1 := by
          intro he
          exact hq (he ▸ List.mem_map_of_mem Prod.fst h)
        simpa [lookupE, hne] using ih ht h

theorem mem_keys_of_lookupE {id : Nat} {e : FrameEntity} {l : List (Nat × FrameEntity)}
    (h : lookupE id l = some e) : id ∈ l.map Prod.fst := by
  by_contra hm
  rw [← lookupE_eq_none_iff] at hm
  simp [hm] at h

theorem keys_updE (id : Nat) (e : FrameEntity) (l : List (Nat × FrameEntity)) :
    (updE id e l).map Prod.fst = l.map Prod.fst := by
  induction l with
  | nil => rfl
  | cons p t ih => by_cases h : p.1 = id <;> simp [updE, h, ih]

theorem updE_of_lookupE_none {id : Nat} {e : FrameEntity} {l : List (Nat × FrameEntity)}
    (h : lookupE id l = none) : updE id e l = l := by
  induction l with
  | nil => rfl
  | cons p t ih =>
      by_cases hp : p.1 = id
      · simp [lookupE, hp] at h
      · simp [lookupE, hp] at h
        simp [updE, hp, ih h]

theorem lookupE_updE_self {id : Nat} {e e' : FrameEntity} {l : List (Nat × FrameEntity)}
    (h : lookupE id l = some e) : lookupE id (updE id e' l) = some e' := by
  induction l with
  | nil => simp [lookupE] at h
  | cons p t ih =>
      by_cases hp : p.1 = id
      · simp [updE, hp, lookupE]
      · simp [lookupE, hp] at h
        simp [updE, hp, lookupE, ih h]

theorem lookupE_updE_ne {j id : Nat} {e : FrameEntity} {l : List (Nat × FrameEntity)}
    (h : j ≠ id) : lookupE j (updE id e l) = lookupE j l := by
  induction l with
  | nil => rfl
  | cons p t ih =>
      by_cases hp : p.1 = id
      · have h1 : ¬ (id = j) := fun he => h he.symm
        have h2 : ¬ (p.1 = j) := fun he => h ((hp ▸ he).symm)
        simp [updE, hp, lookupE, h1, h2, ih]
      · rw [updE, if_neg hp]
        by_cases hj : p.1 = j
        · simp [lookupE, hj]
        · simp [lookupE, hj, ih]

theorem delE_sublist (id : Nat) (l : List (Nat × FrameEntity)) :
    List.Sublist (delE id l) l := by
  induction l with
  | nil => simp [delE]
  | cons p t ih =>
      by_cases h : p.1 = id
      · simpa [delE, h] using ih.cons p
      · simpa [delE, h] using ih.cons₂ p

theorem keysNodup_delE {id : Nat} {l : List (Nat × FrameEntity)} (h : keysNodup l) :
    keysNodup (delE id l) := by
  exact List.Nodup.sublist (List.Sublist.map Prod.fst (delE_sublist id l)) h

theorem lookupE_delE_self (id : Nat) (l : List (Nat × FrameEntity)) :
    lookupE id (delE id l) = none := by
  induction l with
  | nil => rfl
  | cons p t ih =>
      by_cases h : p.1 = id <;> simp [delE, h, lookupE, ih]

theorem lookupE_delE_ne {j id : Nat} (l : List (Nat × FrameEntity)) (h : j ≠ id) :
    lookupE j (delE id l) = lookupE j l := by
  induction l with
  | nil => rfl
  | cons p t ih =>
      by_cases hp : p.1 = id
      · have h2 : ¬ (p.1 = j) := fun he => h ((hp ▸ he : id = j)).symm
        rw [delE, if_pos hp, ih, lookupE, if_neg h2]
      · rw [delE, if_neg hp]
        by_cases hj : p.1 = j
        · simp [lookupE, hj]
        · simp [lookupE, hj, ih]

theorem mem_keys_delE {j id : Nat} {l : List (Nat × FrameEntity)}
    (h : j ∈ (delE id l).map Prod.fst) : j ∈ l.map Prod.fst ∧ j ≠ id := by
  constructor
  · exact (List.Sublist.map Prod.fst (delE_sublist id l)).mem h
  · intro he
    subst he
    have hn := lookupE_delE_self j l
    rw [lookupE_eq_none_iff] at hn
    exact hn h

theorem evictCount_cons (p : Nat × FrameEntity) (l : List (Nat × FrameEntity)) :
    evictCount (p :: l) = (if p.2.evictable then 1 else 0) + evictCount l := by
  by_cases h : p.2.evictable <;>
    simp [evictCount, List.filter_cons, h, Nat.add_comm]

theorem evictCount_updE {id : Nat} {e e' : FrameEntity} {l : List (Nat × FrameEntity)}
    (hn : keysNodup l) (h : lookupE id l = some e) (hev : e'.evictable = e.evictable) :
    evictCount (updE id e' l) = evictCount l := by
  induction l with
  | nil => simp [lookupE] at h
  | cons p t ih =>
      rcases List.nodup_cons.mp hn with ⟨hp, ht⟩
      by_cases hpi : p.1 = id
      · simp [lookupE, hpi] at h
        have hnone : lookupE id t = none := by
          rw [lookupE_eq_none_iff]
          exact hpi ▸ hp
        rw [updE, if_pos hpi, updE_of_lookupE_none hnone,
          evictCount_cons, evictCount_cons]
        simp [h, hev]
      · simp [lookupE, hpi] at h
        rw [updE, if_neg hpi, evictCount_cons, evictCount_cons, ih ht h]

theorem evictCount_updE_off {id : Nat} {e e' : FrameEntity} {l : List (Nat × FrameEntity)}
    (hn : keysNodup l) (h : lookupE id l = some e) (hev : e.evictable = true)
    (hev' : e'.evictable = false) :
    evictCount l = evictCount (updE id e' l) + 1 := by
  induction l with
  | nil => simp [lookupE] at h
  | cons p t ih =>
      rcases List.nodup_cons.mp hn with ⟨hp, ht⟩
      by_cases hpi : p.1 = id
      · simp [lookupE, hpi] at h
        have hnone : lookupE id t = none := by
          rw [lookupE_eq_none_iff]
          exact hpi ▸ hp
        rw [updE, if_pos hpi, updE_of_lookupE_none hnone,
          evictCount_cons, evictCount_cons]
        simp [h, hev, hev', Nat.add_comm]
      · simp [lookupE, hpi] at h
        rw [updE, if_neg hpi, evictCount_cons, evictCount_cons, ih ht h]
        omega

theorem evictCount_updE_on {id : Nat} {e e' : FrameEntity} {l : List (Nat × FrameEntity)}
    (hn : keysNodup l) (h : lookupE id l = some e) (hev : e.evictable = false)
    (hev' : e'.evictable = true) :
    evictCount (updE id e' l) = evictCount l + 1 := by
  induction l with
  | nil => simp [lookupE] at h
  | cons p t ih =>
      rcases List.nodup_cons.mp hn with ⟨hp, ht⟩
      by_cases hpi : p.1 = id
      · simp [lookupE, hpi] at h
        have hnone : lookupE id t = none := by
          rw [lookupE_eq_none_iff]
          exact hpi ▸ hp
        rw [updE, if_pos hpi, updE_of_lookupE_none hnone,
          evictCount_cons, evictCount_cons]
        simp [h, hev, hev', Nat.add_comm]
      · simp [lookupE, hpi] at h
        rw [updE, if_neg hpi, evictCount_cons, evictCount_cons, ih ht h]
        omega

theorem delE_of_lookupE_none {id : Nat} {l : List (Nat × FrameEntity)}
    (h : lookupE id l = none) : delE id l = l := by
  induction l with
  | nil => rfl
  | cons p t ih =>
      by_cases hp : p.1 = id
      · simp [lookupE, hp] at h
      · simp [lookupE, hp] at h
        simp [delE, hp, ih h]

theorem evictCount_delE {id : Nat} {e : FrameEntity} {l : List (Nat × FrameEntity)}
    (hn : keysNodup l) (h : lookupE id l = some e) (hev : e.evictable = true) :
    evictCount l = evictCount (delE id l) + 1 := by
  induction l with
  | nil => simp [lookupE] at h
  | cons p t ih =>
      rcases List.nodup_cons.mp hn with ⟨hp, ht⟩
      by_cases hpi : p.1 = id
      · simp [lookupE, hpi] at h
        have hnone : lookupE id t = none := by
          rw [lookupE_eq_none_iff]
          exact hpi ▸ hp
        rw [delE, if_pos hpi, delE_of_lookupE_none hnone, evictCount_cons]
        simp [h, hev, Nat.add_comm]
      · simp [lookupE, hpi] at h
        rw [delE, if_neg hpi, evictCount_cons, evictCount_cons, ih ht h]
        omega

theorem evictCount_delE_off {id : Nat} {e : FrameEntity} {l : List (Nat × FrameEntity)}
    (hn : keysNodup l) (h : lookupE id l = some e) (hev : e.evictable = false) :
    evictCount (delE id l) = evictCount l := by
  induction l with
  | nil => simp [lookupE] at h
  | cons p t ih =>
      rcases List.nodup_cons.mp hn with ⟨hp, ht⟩
      by_cases hpi : p.1 = id
      · simp [lookupE, hpi] at h
        have hnone : lookupE id t = none := by
          rw [lookupE_eq_none_iff]
          exact hpi ▸ hp
        rw [delE, if_pos hpi, delE_of_lookupE_none hnone, evictCount_cons]
        simp [h, hev]
      · simp [lookupE, hpi] at h
        rw [delE, if_neg hpi, evictCount_cons, evictCount_cons, ih ht h]

theorem scanEv_found {ents : List (Nat × FrameEntity)} {l : List Nat} {id : Nat}
    (h : scanEv ents l = some (some id)) :
    id ∈ l ∧ ∃ e, lookupE id ents = some e ∧ e.evictable = true := by
  induction l with
  | nil => simp [scanEv] at h
  | cons x t ih =>
      rw [scanEv] at h
      cases hl : lookupE x ents with
      | none => simp [hl] at h
      | some e =>
          rw [hl] at h
          by_cases he : e.evictable
          · simp [he] at h
            subst h
            exact ⟨List.mem_cons_self x t, e, hl, he⟩
          · simp [he] at h
            rcases ih h with ⟨hm, hx⟩
            exact ⟨List.mem_cons_of_mem x hm, hx⟩

theorem scanEv_eq_find {ents : List (Nat × FrameEntity)} {l : List Nat}
    (h : ∀ id ∈ l, ∃ e, lookupE id ents = some e) :
    scanEv ents l = (l.find? (isEvict ents)).map some := by
  induction l with
  | nil => simp [scanEv]
  | cons x t ih =>
      rcases h x (List.mem_cons_self x t) with ⟨e, he⟩
      rw [scanEv, he, List.find?]
      by_cases hev : e.evictable
      · simp [hev, isEvict, he]
      · have hx : isEvict ents x = false := by simp [isEvict, he, hev]
        simp only [hev, if_neg, hx, Bool.false_eq_true]
        rw [ih (fun j hj => h j (List.mem_cons_of_mem x hj))]
        simp

theorem touch_invSize {s : Replacer} {id : Nat} {e : FrameEntity}
    (hn : InvSize s) (hl : lookupE id s.entities = some e) :
    InvSize (touch s id e) := by
  rcases hn with ⟨hc, hk⟩
  have hcount : evictCount (updE id { e with hit_count := e.hit_count + 1 } s.entities)
      = evictCount s.entities := evictCount_updE hk hl rfl
  have hkeys : keysNodup (updE id { e with hit_count := e.hit_count + 1 } s.entities) := by
    unfold keysNodup
    rw [keys_updE]
    exact hk
  simp only [touch]
  split
  · exact ⟨hc.trans hcount.symm, hkeys⟩
  · split
    · exact ⟨hc.trans hcount.symm, hkeys⟩
    · exact ⟨hc.trans hcount.symm, hkeys⟩

theorem touch_invK {s : Replacer} {id : Nat} {e : FrameEntity}
    (hK : InvK s) (hl : lookupE id s.entities = some e) :
    InvK (touch s id e) := by
  obtain ⟨hnd, hh, hc, hdom⟩ := hK
  rw [List.nodup_append] at hnd
  obtain ⟨hhn, hcn, hdisj⟩ := hnd
  have hm : id ∈ s.entities.map Prod.fst := mem_keys_of_lookupE hl
  have hco := hdom id hm
  have hkeys' : ∀ e', (updE id e' s.entities).map Prod.fst = s.entities.map Prod.fst :=
    fun e' => keys_updE id e' s.entities
  simp only [touch]
  split
  · rename_i h1
    -- hit_count transitions to k: move from history to the cache front
    have idh : id ∈ s.hist := by
      rcases hco with h | h
      · exact h
      · rcases hc id h with ⟨e', hl', hke'⟩
        rw [hl] at hl'
        cases hl'
        omega
    have idnc : id ∉ s.cache := fun hx => hdisj idh hx
    refine ⟨?_, ?_, ?_, ?_⟩
    · rw [List.nodup_append]
      refine ⟨hhn.erase id, List.nodup_cons.mpr ⟨idnc, hcn⟩, ?_⟩
      intro x hx hx2
      have hx3 := (List.Nodup.mem_erase_iff hhn).mp hx
      rcases List.mem_cons.mp hx2 with h | h
      · exact hx3.1 h
      · exact hdisj hx3.2 h
    · intro j hj
      have hj2 := (List.Nodup.mem_erase_iff hhn).mp hj
      rcases hh j hj2.2 with ⟨e', hl', hke'⟩
      exact ⟨e', by rw [lookupE_updE_ne hj2.1]; exact hl', hke'⟩
    · intro j hj
      rcases List.mem_cons.mp hj with h | h
      · subst h
        refine ⟨_, lookupE_updE_self hl, ?_⟩
        simp only []
        omega
      · have hne : j ≠ id := fun he => idnc (he ▸ h)
        rcases hc j h with ⟨e', hl', hke'⟩
        exact ⟨e', by rw [lookupE_updE_ne hne]; exact hl', hke'⟩
    · intro j hj
      rw [hkeys'] at hj
      by_cases hji : j = id
      · exact Or.inr (hji ▸ List.mem_cons_self id s.cache)
      · rcases hdom j hj with h | h
        · exact Or.inl ((List.mem_erase_of_ne hji).mpr h)
        · exact Or.inr (List.mem_cons_of_mem id h)
  · split
    · rename_i h1 h2
      -- hit_count exceeds k: refresh the cache position
      have idc : id ∈ s.cache := by
        rcases hco with h | h
        · rcases hh id h with ⟨e', hl', hke'⟩
          rw [hl] at hl'
          cases hl'
          omega
        · exact h
      have idnh : id ∉ s.hist := fun hx => hdisj hx idc
      refine ⟨?_, ?_, ?_, ?_⟩
      · rw [List.nodup_append]
        refine ⟨hhn, List.nodup_cons.mpr ⟨?_, hcn.erase id⟩, ?_⟩
        · intro hx
          exact ((List.Nodup.mem_erase_iff hcn).mp hx).1 rfl
        · intro x hx hx2
          rcases List.mem_cons.mp hx2 with h | h
          · exact idnh (h ▸ hx)
          · exact hdisj hx (List.mem_of_mem_erase h)
      · intro j hj
        have hne : j ≠ id := fun he => idnh (he ▸ hj)
        rcases hh j hj with ⟨e', hl', hke'⟩
        exact ⟨e', by rw [lookupE_updE_ne hne]; exact hl', hke'⟩
      · intro j hj
        rcases List.mem_cons.mp hj with h | h
        · subst h
          refine ⟨_, lookupE_updE_self hl, ?_⟩
          show s.k ≤ e.hit_count + 1
          omega
        · have hj2 := (List.Nodup.mem_erase_iff hcn).mp h
          rcases hc j hj2.2 with ⟨e', hl', hke'⟩
          exact ⟨e', by rw [lookupE_updE_ne hj2.1]; exact hl', hke'⟩
      · intro j hj
        rw [hkeys'] at hj
        by_cases hji : j = id
        · exact Or.inr (hji ▸ List.mem_cons_self id (s.cache.erase id))
        · rcases hdom j hj with h | h
          · exact Or.inl h
          · exact Or.inr (List.mem_cons_of_mem id ((List.mem_erase_of_ne hji).mpr h))
    · rename_i h1 h2
      -- hit_count stays below k: only the map entry changes
      have idh : id ∈ s.hist := by
        rcases hco with h | h
        · exact h
        · rcases hc id h with ⟨e', hl', hke'⟩
          rw [hl] at hl'
          cases hl'
          omega
      refine ⟨?_, ?_, ?_, ?_⟩
      · rw [List.nodup_append]
        exact ⟨hhn, hcn, hdisj⟩
      · intro j hj
        by_cases hji : j = id
        · subst hji
          refine ⟨_, lookupE_updE_self hl, ?_⟩
          show e.hit_count + 1 < s.k
          omega
        · rcases hh j hj with ⟨e', hl', hke'⟩
          exact ⟨e', by rw [lookupE_updE_ne hji]; exact hl', hke'⟩
      · intro j hj
        have hne : j ≠ id := fun he => hdisj idh (he ▸ hj)
        rcases hc j hj with ⟨e', hl', hke'⟩
        exact ⟨e', by rw [lookupE_updE_ne hne]; exact hl', hke'⟩
      · intro j hj
        rw [hkeys'] at hj
        exact hdom j hj

theorem recordAccess_invSize {s : Replacer} {id : Nat} (h : InvSize s) :
    InvSize (recordAccess s id) := by
  unfold recordAccess
  split
  · exact h
  · split
    · rename_i heq
      have hni : id ∉ s.entities.map Prod.fst := lookupE_eq_none_iff.mp heq
      apply touch_invSize
      · refine ⟨?_, ?_⟩
        · show s.curr_size + 1 = evictCount ((id, ⟨0, true⟩) :: s.entities)
          rw [evictCount_cons, ← h.1]
          simp [Nat.add_comm]
        · show ((List.map Prod.fst ((id, ⟨0, true⟩) :: s.entities))).Nodup
          exact List.nodup_cons.mpr ⟨hni, h.2⟩
      · show lookupE id ((id, ⟨0, true⟩) :: s.entities) = some ⟨0, true⟩
        simp [lookupE]
    · rename_i e heq
      exact touch_invSize h heq

theorem recordAccess_invK {s : Replacer} {id : Nat}
    (hK : InvK s) (hk1 : 1 ≤ s.k) : InvK (recordAccess s id) := by
  obtain ⟨hnd, hh, hc, hdom⟩ := hK
  unfold recordAccess
  split
  · exact ⟨hnd, hh, hc, hdom⟩
  · split
    · rename_i heq
      have hnih : id ∉ s.hist := by
        intro hx
        rcases hh id hx with ⟨e', hl', _⟩
        rw [heq] at hl'
        cases hl'
      have hnic : id ∉ s.cache := by
        intro hx
        rcases hc id hx with ⟨e', hl', _⟩
        rw [heq] at hl'
        cases hl'
      apply touch_invK
      · refine ⟨?_, ?_, ?_, ?_⟩
        · show (((id :: s.hist) : List Nat) ++ s.cache).Nodup
          rw [List.cons_append, List.nodup_cons]
          refine ⟨?_, hnd⟩
          intro hx
          rcases List.mem_append.mp hx with hx | hx
          · exact hnih hx
          · exact hnic hx
        · intro j hj
          rcases List.mem_cons.mp hj with hji | hji
          · subst hji
            exact ⟨⟨0, true⟩, by simp [lookupE], hk1⟩
          · have hne : ¬ (id = j) := fun he => hnih (he ▸ hji)
            rcases hh j hji with ⟨e', hl', hke'⟩
            exact ⟨e', by simpa [lookupE, hne] using hl', hke'⟩
        · intro j hj
          have hne : ¬ (id = j) := fun he => hnic (he ▸ hj)
          rcases hc j hj with ⟨e', hl', hke'⟩
          exact ⟨e', by simpa [lookupE, hne] using hl', hke'⟩
        · intro j hj
          rw [List.map_cons] at hj
          rcases List.mem_cons.mp hj with hji | hji
          · exact Or.inl (hji ▸ List.mem_cons_self id s.hist)
          · rcases hdom j hji with hx | hx
            · exact Or.inl (List.mem_cons_of_mem id hx)
            · exact Or.inr hx
      · show lookupE id ((id, ⟨0, true⟩) :: s.entities) = some ⟨0, true⟩
        simp [lookupE]
    · rename_i e heq
      exact touch_invK ⟨hnd, hh, hc, hdom⟩ heq

theorem setEvictable_invSize {s : Replacer} {id : Nat} {f : Bool} (h : InvSize s) :
    InvSize (setEvictable s id f) := by
  obtain ⟨hcs, hkn⟩ := h
  unfold setEvictable
  split
  · exact ⟨hcs, hkn⟩
  · split
    · exact ⟨hcs, hkn⟩
    · rename_i e heq
      have hkeys : keysNodup (updE id { e with evictable := f } s.entities) := by
        unfold keysNodup
        rw [keys_updE]
        exact hkn
      split
      · rename_i hb
        rw [Bool.and_eq_true, Bool.not_eq_true'] at hb
        have := evictCount_updE_off hkn heq hb.1 (show ({ e with evictable := f }).evictable = false from hb.2)
        refine ⟨?_, hkeys⟩
        show s.curr_size - 1 = evictCount (updE id { e with evictable := f } s.entities)
        omega
      · split
        · rename_i hb hb2
          rw [Bool.and_eq_true, Bool.not_eq_true'] at hb2
          have := evictCount_updE_on hkn heq hb2.1 (show ({ e with evictable := f }).evictable = true from hb2.2)
          refine ⟨?_, hkeys⟩
          show s.curr_size + 1 = evictCount (updE id { e with evictable := f } s.entities)
          omega
        · rename_i hb hb2
          have hef : e.evictable = f := by
            cases hf : e.evictable <;> cases hg : f <;> simp [hf, hg] at hb hb2 ⊢
          have := evictCount_updE hkn heq (show ({ e with evictable := f }).evictable = e.evictable by simp [hef])
          refine ⟨?_, hkeys⟩
          show s.curr_size = evictCount (updE id { e with evictable := f } s.entities)
          omega

theorem setEvictable_invK {s : Replacer} {id : Nat} {f : Bool} (hK : InvK s) :
    InvK (setEvictable s id f) := by
  obtain ⟨hnd, hh, hc, hdom⟩ := hK
  unfold setEvictable
  split
  · exact ⟨hnd, hh, hc, hdom⟩
  · split
    · exact ⟨hnd, hh, hc, hdom⟩
    · rename_i e heq
      have main : ∀ c : Nat, InvK { s with entities := updE id { e with evictable := f } s.entities, curr_size := c } := by
        intro c
        refine ⟨hnd, ?_, ?_, ?_⟩
        · intro j hj
          by_cases hji : j = id
          · subst hji
            rcases hh j hj with ⟨e', hl', hke'⟩
            rw [heq] at hl'
            cases hl'
            exact ⟨_, lookupE_updE_self heq, hke'⟩
          · rcases hh j hj with ⟨e', hl', hke'⟩
            exact ⟨e', by rw [lookupE_updE_ne hji]; exact hl', hke'⟩
        · intro j hj
          by_cases hji : j = id
          · subst hji
            rcases hc j hj with ⟨e', hl', hke'⟩
            rw [heq] at hl'
            cases hl'
            exact ⟨_, lookupE_updE_self heq, hke'⟩
          · rcases hc j hj with ⟨e', hl', hke'⟩
            exact ⟨e', by rw [lookupE_updE_ne hji]; exact hl', hke'⟩
        · intro j hj
          rw [keys_updE] at hj
          exact hdom j hj
      split
      · exact main _
      · split
        · exact main _
        · exact main _

theorem removeL_invSize {s : Replacer} {id : Nat} (h : InvSize s) :
    InvSize (removeL s id) := by
  obtain ⟨hcs, hkn⟩ := h
  unfold removeL
  split
  · exact ⟨hcs, hkn⟩
  · split
    · exact ⟨hcs, hkn⟩
    · rename_i e heq
      split
      · exact ⟨hcs, hkn⟩
      · rename_i hev
        rw [Bool.not_eq_false] at hev
        have hdel := evictCount_delE hkn heq hev
        have hkd : keysNodup (delE id s.entities) := keysNodup_delE hkn
        split
        · refine ⟨?_, hkd⟩
          show s.curr_size - 1 = evictCount (delE id s.entities)
          omega
        · refine ⟨?_, hkd⟩
          show s.curr_size - 1 = evictCount (delE id s.entities)
          omega

theorem removeL_invK {s : Replacer} {id : Nat} (hK : InvK s) :
    InvK (removeL s id) := by
  obtain ⟨hnd, hh, hc, hdom⟩ := hK
  rw [List.nodup_append] at hnd
  obtain ⟨hhn, hcn, hdisj⟩ := hnd
  unfold removeL
  split
  · exact ⟨List.nodup_append.mpr ⟨hhn, hcn, hdisj⟩, hh, hc, hdom⟩
  · split
    · exact ⟨List.nodup_append.mpr ⟨hhn, hcn, hdisj⟩, hh, hc, hdom⟩
    · rename_i e heq
      have hm := mem_keys_of_lookupE heq
      split
      · exact ⟨List.nodup_append.mpr ⟨hhn, hcn, hdisj⟩, hh, hc, hdom⟩
      · split
        · rename_i hev hlt
          -- the record sits in the history list
          refine ⟨?_, ?_, ?_, ?_⟩
          · rw [List.nodup_append]
            refine ⟨hhn.erase id, hcn, ?_⟩
            intro x hx hx2
            exact hdisj (List.mem_of_mem_erase hx) hx2
          · intro j hj
            have hj2 := (List.Nodup.mem_erase_iff hhn).mp hj
            rcases hh j hj2.2 with ⟨e', hl', hke'⟩
            exact ⟨e', by rw [lookupE_delE_ne _ hj2.1]; exact hl', hke'⟩
          · intro j hj
            have hid : id ∈ s.hist := by
              rcases hdom id hm with h | h
              · exact h
              · rcases hc id h with ⟨e', hl', hke'⟩
                rw [heq] at hl'
                cases hl'
                omega
            have hne : j ≠ id := fun he => hdisj hid (he ▸ hj)
            rcases hc j hj with ⟨e', hl', hke'⟩
            exact ⟨e', by rw [lookupE_delE_ne _ hne]; exact hl', hke'⟩
          · intro j hj
            rcases mem_keys_delE hj with ⟨hjk, hjne⟩
            rcases hdom j hjk with h | h
            · exact Or.inl ((List.mem_erase_of_ne hjne).mpr h)
            · exact Or.inr h
        · rename_i hev hge
          -- the record sits in the cache list
          refine ⟨?_, ?_, ?_, ?_⟩
          · rw [List.nodup_append]
            refine ⟨hhn, hcn.erase id, ?_⟩
            intro x hx hx2
            exact hdisj hx (List.mem_of_mem_erase hx2)
          · intro j hj
            have hid : id ∈ s.cache := by
              rcases hdom id hm with h | h
              · rcases hh id h with ⟨e', hl', hke'⟩
                rw [heq] at hl'
                cases hl'
                omega
              · exact h
            have hne : j ≠ id := fun he => hdisj (he ▸ hj) hid
            rcases hh j hj with ⟨e', hl', hke'⟩
            exact ⟨e', by rw [lookupE_delE_ne _ hne]; exact hl', hke'⟩
          · intro j hj
            have hj2 := (List.Nodup.mem_erase_iff hcn).mp hj
            rcases hc j hj2.2 with ⟨e', hl', hke'⟩
            exact ⟨e', by rw [lookupE_delE_ne _ hj2.1]; exact hl', hke'⟩
          · intro j hj
            rcases mem_keys_delE hj with ⟨hjk, hjne⟩
            rcases hdom j hjk with h | h
            · exact Or.inl h
            · exact Or.inr ((List.mem_erase_of_ne hjne).mpr h)

theorem evict_invSize {s : Replacer} (h : InvSize s) :
    InvSize (evictFull s).state := by
  obtain ⟨hcs, hkn⟩ := h
  unfold evictFull
  split
  · exact ⟨hcs, hkn⟩
  · split
    · exact ⟨hcs, hkn⟩
    · rename_i id hscan
      have hscan2 : scanEv s.entities s.hist.reverse = some (some id) := by
        split at hscan
        · cases hscan
        · exact hscan
      rcases scanEv_found hscan2 with ⟨_, e, hl, hev⟩
      have hdel := evictCount_delE hkn hl hev
      refine ⟨?_, keysNodup_delE hkn⟩
      show s.curr_size - 1 = evictCount (delE id s.entities)
      omega
    · split
      · exact ⟨hcs, hkn⟩
      · rename_i id hscan
        have hscan2 : scanEv s.entities s.cache.reverse = some (some id) := by
          split at hscan
          · cases hscan
          · exact hscan
        rcases scanEv_found hscan2 with ⟨_, e, hl, hev⟩
        have hdel := evictCount_delE hkn hl hev
        refine ⟨?_, keysNodup_delE hkn⟩
        show s.curr_size - 1 = evictCount (delE id s.entities)
        omega
      · exact ⟨hcs, hkn⟩

theorem evict_invK {s : Replacer} (hK : InvK s) :
    InvK (evictFull s).state := by
  obtain ⟨hnd, hh, hc, hdom⟩ := hK
  rw [List.nodup_append] at hnd
  obtain ⟨hhn, hcn, hdisj⟩ := hnd
  unfold evictFull
  split
  · exact ⟨List.nodup_append.mpr ⟨hhn, hcn, hdisj⟩, hh, hc, hdom⟩
  · split
    · exact ⟨List.nodup_append.mpr ⟨hhn, hcn, hdisj⟩, hh, hc, hdom⟩
    · rename_i id hscan
      have hmem : id ∈ s.hist := by
        split at hscan
        · cases hscan
        · exact List.mem_reverse.mp (scanEv_found hscan).1
      refine ⟨?_, ?_, ?_, ?_⟩
      · rw [List.nodup_append]
        refine ⟨hhn.erase id, hcn, ?_⟩
        intro x hx hx2
        exact hdisj (List.mem_of_mem_erase hx) hx2
      · intro j hj
        have hj2 := (List.Nodup.mem_erase_iff hhn).mp hj
        rcases hh j hj2.2 with ⟨e', hl', hke'⟩
        exact ⟨e', by rw [lookupE_delE_ne _ hj2.1]; exact hl', hke'⟩
      · intro j hj
        have hne : j ≠ id := fun he => hdisj hmem (he ▸ hj)
        rcases hc j hj with ⟨e', hl', hke'⟩
        exact ⟨e', by rw [lookupE_delE_ne _ hne]; exact hl', hke'⟩
      · intro j hj
        rcases mem_keys_delE hj with ⟨hjk, hjne⟩
        rcases hdom j hjk with h | h
        · exact Or.inl ((List.mem_erase_of_ne hjne).mpr h)
        · exact Or.inr h
    · split
      · exact ⟨List.nodup_append.mpr ⟨hhn, hcn, hdisj⟩, hh, hc, hdom⟩
      · rename_i id hscan
        have hmem : id ∈ s.cache := by
          split at hscan
          · cases hscan
          · exact List.mem_reverse.mp (scanEv_found hscan).1
        refine ⟨?_, ?_, ?_, ?_⟩
        · rw [List.nodup_append]
          refine ⟨hhn, hcn.erase id, ?_⟩
          intro x hx hx2
          exact hdisj hx (List.mem_of_mem_erase hx2)
        · intro j hj
          have hne : j ≠ id := fun he => hdisj (he ▸ hj) hmem
          rcases hh j hj with ⟨e', hl', hke'⟩
          exact ⟨e', by rw [lookupE_delE_ne _ hne]; exact hl', hke'⟩
        · intro j hj
          have hj2 := (List.Nodup.mem_erase_iff hcn).mp hj
          rcases hc j hj2.2 with ⟨e', hl', hke'⟩
          exact ⟨e', by rw [lookupE_delE_ne _ hj2.1]; exact hl', hke'⟩
        · intro j hj
          rcases mem_keys_delE hj with ⟨hjk, hjne⟩
          rcases hdom j hjk with h | h
          · exact Or.inl h
          · exact Or.inr ((List.mem_erase_of_ne hjne).mpr h)
      · exact ⟨List.nodup_append.mpr ⟨hhn, hcn, hdisj⟩, hh, hc, hdom⟩

theorem touch_k (s : Replacer) (id : Nat) (e : FrameEntity) : (touch s id e).k = s.k := by
  simp only [touch]
  repeat' split
  all_goals rfl

theorem recordAccess_k (s : Replacer) (id : Nat) : (recordAccess s id).k = s.k := by
  simp only [recordAccess]
  split
  · rfl
  · split
    · rw [touch_k]
    · rw [touch_k]

theorem setEvictable_k (s : Replacer) (id : Nat) (f : Bool) :
    (setEvictable s id f).k = s.k := by
  simp only [setEvictable]
  repeat' split
  all_goals rfl

theorem removeL_k (s : Replacer) (id : Nat) : (removeL s id).k = s.k := by
  simp only [removeL]
  repeat' split
  all_goals rfl

theorem evict_k (s : Replacer) : (evictFull s).state.k = s.k := by
  simp only [evictFull]
  repeat' split
  all_goals rfl

theorem reach_invSize {s : Replacer} (h : ReachL s) : InvSize s := by
  induction h with
  | init n k => exact ⟨rfl, List.nodup_nil⟩
  | record s id _ ih => exact recordAccess_invSize ih
  | setEv s id f _ ih => exact setEvictable_invSize ih
  | rem s id _ ih => exact removeL_invSize ih
  | evict s _ ih => exact evict_invSize ih

theorem reach_invK {s : Replacer} (h : ReachL s) (hk : 1 ≤ s.k) : InvK s := by
  induction h with
  | init n k =>
      refine ⟨List.nodup_nil, ?_, ?_, ?_⟩
      · intro j hj
        cases hj
      · intro j hj
        cases hj
      · intro j hj
        cases hj
  | record s id _ ih =>
      rw [recordAccess_k] at hk
      exact recordAccess_invK (ih hk) hk
  | setEv s id f _ ih =>
      rw [setEvictable_k] at hk
      exact setEvictable_invK (ih hk)
  | rem s id _ ih =>
      rw [removeL_k] at hk
      exact removeL_invK (ih hk)
  | evict s _ ih =>
      rw [show (evictL s).2 = (evictFull s).state from rfl, evict_k] at hk
      exact evict_invK (ih hk)

theorem evict_char {s : Replacer} (hS : InvSize s) (hK : InvK s)
    (hne : ¬ s.curr_size = 0) :
    ∃ id,
      ((s.hist.reverse.find? (isEvict s.entities) = some id ∧
        evictFull s = ⟨some id, some id,
          { s with hist := s.hist.erase id, entities := delE id s.entities,
                   curr_size := s.curr_size - 1 }⟩) ∨
       (s.hist.reverse.find? (isEvict s.entities) = none ∧
        s.cache.reverse.find? (isEvict s.entities) = some id ∧
        evictFull s = ⟨some id, some id,
          { s with cache := s.cache.erase id, entities := delE id s.entities,
                   curr_size := s.curr_size - 1 }⟩)) := by
  obtain ⟨hcs, hkn⟩ := hS
  obtain ⟨hnd, hh, hc, hdom⟩ := hK
  have hallh : ∀ j ∈ s.hist.reverse, ∃ e, lookupE j s.entities = some e := by
    intro j hj
    rcases hh j (List.mem_reverse.mp hj) with ⟨e, he, _⟩
    exact ⟨e, he⟩
  have hallc : ∀ j ∈ s.cache.reverse, ∃ e, lookupE j s.entities = some e := by
    intro j hj
    rcases hc j (List.mem_reverse.mp hj) with ⟨e, he, _⟩
    exact ⟨e, he⟩
  cases hfh : s.hist.reverse.find? (isEvict s.entities) with
  | some id =>
      have hsh := scanEv_eq_find hallh
      rw [hfh] at hsh
      have hne2 : ¬ s.hist.isEmpty = true := by
        cases hhist : s.hist with
        | nil =>
            rw [hhist] at hfh
            simp at hfh
        | cons a t => simp [hhist]
      refine ⟨id, Or.inl ⟨rfl, ?_⟩⟩
      unfold evictFull
      rw [if_neg hne, if_neg hne2, hsh]
      rfl
  | none =>
      have hsh := scanEv_eq_find hallh
      rw [hfh] at hsh
      have hbr : (if s.hist.isEmpty then none else scanEv s.entities s.hist.reverse)
          = (none : Option (Option Nat)) := by
        by_cases hemp : s.hist.isEmpty
        · rw [if_pos hemp]
        · rw [if_neg hemp, hsh]
          rfl
      cases hfc : s.cache.reverse.find? (isEvict s.entities) with
      | some id =>
          have hsc := scanEv_eq_find hallc
          rw [hfc] at hsc
          have hne2 : ¬ s.cache.isEmpty = true := by
            cases hcache : s.cache with
            | nil =>
                rw [hcache] at hfc
                simp at hfc
            | cons a t => simp [hcache]
          refine ⟨id, Or.inr ⟨rfl, rfl, ?_⟩⟩
          unfold evictFull
          rw [if_neg hne, hbr, if_neg hne2, hsc]
          rfl
      | none =>
          exfalso
          have hpos : 0 < evictCount s.entities := by omega
          have hex : ∃ p, p ∈ s.entities ∧ p.2.evictable = true := by
            unfold evictCount at hpos
            rcases List.exists_mem_of_length_pos hpos with ⟨p, hp⟩
            have hpf := List.mem_filter.mp hp
            exact ⟨p, hpf.1, hpf.2⟩
          rcases hex with ⟨p, hp, hpe⟩
          have hle : lookupE p.1 s.entities = some p.2 := lookupE_of_mem_nodup hkn hp
          have hie : isEvict s.entities p.1 = true := by
            unfold isEvict
            rw [hle]
            exact hpe
          rcases hdom p.1 (List.mem_map_of_mem Prod.fst hp) with hx | hx
          · exact absurd hie
              (by simpa using List.find?_eq_none.mp hfh p.1 (List.mem_reverse.mpr hx))
          · exact absurd hie
              (by simpa using List.find?_eq_none.mp hfc p.1 (List.mem_reverse.mpr hx))

/-- Claim C1: for every reachable tracker state (with `k ≥ 1`), `Evict`
returns not-found when `curr_size == 0`; otherwise it returns and removes
the first evictable frame of the tail-to-head scan of `history`, falling
back to the same scan of `cached` only when `history` has no evictable
frame, decrementing `curr_size`; consequently an evictable frame with at
least `k` accesses is returned only when no evictable frame with fewer
than `k` accesses exists, and a non-evictable frame is never returned. -/
theorem evict_claim (s : Replacer) (hs : ReachL s) (hk : 1 ≤ s.k) :
    (s.curr_size = 0 → evictL s = (none, s)) ∧
    (¬ s.curr_size = 0 → ∃ id,
      (evictL s).1 = some id ∧
      ((s.hist.reverse.find? (isEvict s.entities) = some id ∧
        (evictL s).2 = { s with hist := s.hist.erase id,
                                entities := delE id s.entities,
                                curr_size := s.curr_size - 1 }) ∨
       (s.hist.reverse.find? (isEvict s.entities) = none ∧
        s.cache.reverse.find? (isEvict s.entities) = some id ∧
        (evictL s).2 = { s with cache := s.cache.erase id,
                                entities := delE id s.entities,
                                curr_size := s.curr_size - 1 })) ∧
      isEvict s.entities id = true ∧
      (∀ e, lookupE id s.entities = some e → s.k ≤ e.hit_count →
        ∀ p ∈ s.entities, p.2.evictable = true → s.k ≤ p.2.hit_count)) := by
  have hS := reach_invSize hs
  have hK := reach_invK hs hk
  constructor
  · intro h0
    unfold evictL evictFull
    rw [if_pos h0]
  · intro hne
    obtain ⟨id, hchar⟩ := evict_char hS hK hne
    obtain ⟨hcs, hkn⟩ := hS
    obtain ⟨hnd, hh, hc, hdom⟩ := hK
    rcases hchar with ⟨hfh, heq⟩ | ⟨hfh, hfc, heq⟩
    · refine ⟨id, ?_, Or.inl ⟨hfh, ?_⟩, ?_, ?_⟩
      · show (evictFull s).found = some id
        rw [heq]
      · show (evictFull s).state = _
        rw [heq]
      · exact List.find?_some hfh
      · intro e hle hke p hp hpe
        have hidh : id ∈ s.hist := List.mem_reverse.mp (List.mem_of_find?_eq_some hfh)
        rcases hh id hidh with ⟨e', hle', hke'⟩
        rw [hle] at hle'
        cases hle'
        omega
    · refine ⟨id, ?_, Or.inr ⟨hfh, hfc, ?_⟩, ?_, ?_⟩
      · show (evictFull s).found = some id
        rw [heq]
      · show (evictFull s).state = _
        rw [heq]
      · exact List.find?_some hfc
      · intro e hle hke p hp hpe
        have hple : lookupE p.1 s.entities = some p.2 := lookupE_of_mem_nodup hkn hp
        have hie : isEvict s.entities p.1 = true := by
          unfold isEvict
          rw [hple]
          exact hpe
        rcases hdom p.1 (List.mem_map_of_mem Prod.fst hp) with hx | hx
        · exact absurd hie
            (by simpa using List.find?_eq_none.mp hfh p.1 (List.mem_reverse.mpr hx))
        · rcases hc p.1 hx with ⟨e', hle', hke'⟩
          rw [hple] at hle'
          cases hle'
          exact hke'

theorem recordAccess_oob {s : Replacer} {id : Nat} (h : s.replacer_size < id) :
    recordAccess s id = s := by
  unfold recordAccess
  rw [if_pos h]

theorem setEvictable_oob {s : Replacer} {id : Nat} (f : Bool)
    (h : s.replacer_size < id) : setEvictable s id f = s := by
  unfold setEvictable
  rw [if_pos h]

theorem removeL_oob {s : Replacer} {id : Nat} (h : s.replacer_size < id) :
    removeL s id = s := by
  unfold removeL
  rw [if_pos h]

theorem setEvictable_unknown {s : Replacer} {id : Nat} (f : Bool)
    (h : lookupE id s.entities = none) : setEvictable s id f = s := by
  unfold setEvictable
  split
  · rfl
  · rw [h]

theorem removeL_unknown {s : Replacer} {id : Nat}
    (h : lookupE id s.entities = none) : removeL s id = s := by
  unfold removeL
  split
  · rfl
  · rw [h]

/-- Claim C4: after any sequence of tracker operations, `Size()` equals the
number of tracked records whose evictable flag is true; `SetEvictable` is a
no-op for unknown frames and for identifiers the bound check rejects, it
never moves the record between the two recency lists, and it changes
`curr_size` exactly on a transition of the flag (by one in the transition's
direction). -/
theorem size_claim (s : Replacer) (hs : ReachL s) :
    sizeL s = evictCount s.entities ∧
    (∀ id f, s.replacer_size < id → setEvictable s id f = s) ∧
    (∀ id f, lookupE id s.entities = none → setEvictable s id f = s) ∧
    (∀ id f e, ¬ s.replacer_size < id → lookupE id s.entities = some e →
      (setEvictable s id f).hist = s.hist ∧
      (setEvictable s id f).cache = s.cache ∧
      (setEvictable s id f).curr_size =
        (if e.evictable && !f then s.curr_size - 1
         else if !e.evictable && f then s.curr_size + 1
         else s.curr_size)) := by
  refine ⟨(reach_invSize hs).1, ?_, ?_, ?_⟩
  · intro id f h
    exact setEvictable_oob f h
  · intro id f h
    exact setEvictable_unknown f h
  · intro id f e hoob hle
    unfold setEvictable
    rw [if_neg hoob]
    simp only [hle]
    split
    · exact ⟨rfl, rfl, rfl⟩
    · split
      · exact ⟨rfl, rfl, rfl⟩
      · exact ⟨rfl, rfl, rfl⟩

/-- Claim C5 counterexample: the identifier equal to the capacity lies
outside `[0, capacity)`, yet `RecordAccess` on a capacity-3 tracker accepts
it and changes the tracker's state (the source's bound check uses `>`
instead of `>=`). -/
theorem oob_counterexample :
    ¬ 3 < (initL 3 2).replacer_size ∧ recordAccess (initL 3 2) 3 ≠ initL 3 2 := by
  decide

/-- Claim C5 (amended): for every frame identifier strictly greater than the
configured capacity — the set the source's `>` comparison rejects, which
omits the identifier equal to the capacity — `RecordAccess`, `SetEvictable`
and `Remove` are silent no-ops that leave the whole state unchanged. -/
theorem oob_noop_claim (s : Replacer) (id : Nat) (h : s.replacer_size < id) :
    recordAccess s id = s ∧ (∀ f, setEvictable s id f = s) ∧ removeL s id = s :=
  ⟨recordAccess_oob h, fun f => setEvictable_oob f h, removeL_oob h⟩

theorem oob_noop_claim_witness :
    (initL 3 2).replacer_size < 5 ∧
    (recordAccess (initL 3 2) 5 = initL 3 2 ∧
      (∀ f, setEvictable (initL 3 2) 5 f = initL 3 2) ∧
      removeL (initL 3 2) 5 = initL 3 2) :=
  ⟨by decide, oob_noop_claim (initL 3 2) 5 (by decide)⟩

theorem touch_eq (s : Replacer) (id : Nat) (e : FrameEntity) :
    touch s id e =
      (if e.hit_count + 1 = s.k then
        { s with entities := updE id { e with hit_count := e.hit_count + 1 } s.entities,
                 hist := s.hist.erase id, cache := id :: s.cache }
       else if s.k < e.hit_count + 1 then
        { s with entities := updE id { e with hit_count := e.hit_count + 1 } s.entities,
                 cache := id :: s.cache.erase id }
       else
        { s with entities := updE id { e with hit_count := e.hit_count + 1 } s.entities }) :=
  rfl

/-- Claim C6: for an in-range frame and `k >= 1`, `RecordAccess` on an
unmonitored frame creates a record with `access_count = 0`, `evictable =
true` at the front of `history` and then increments the count to 1 (moving
the record to the cache front when `k = 1`); on a monitored frame it
increments the count by exactly one, moves the record from `history` to the
front of `cached` exactly when the count reaches `k`, and re-inserts it at
the front of `cached` on every access with count above `k`. -/
theorem recordAccess_claim (s : Replacer) (hs : ReachL s) (hk : 1 ≤ s.k)
    (id : Nat) (hid : id < s.replacer_size) :
    (lookupE id s.entities = none →
      lookupE id (recordAccess s id).entities = some ⟨1, true⟩ ∧
      (1 < s.k →
        (recordAccess s id).hist = id :: s.hist ∧ (recordAccess s id).cache = s.cache) ∧
      (1 = s.k →
        (recordAccess s id).hist = s.hist ∧ (recordAccess s id).cache = id :: s.cache)) ∧
    (∀ e, lookupE id s.entities = some e →
      lookupE id (recordAccess s id).entities = some ⟨e.hit_count + 1, e.evictable⟩ ∧
      (e.hit_count + 1 < s.k →
        (recordAccess s id).hist = s.hist ∧ (recordAccess s id).cache = s.cache) ∧
      (e.hit_count + 1 = s.k →
        (recordAccess s id).hist = s.hist.erase id ∧
        (recordAccess s id).cache = id :: s.cache ∧ id ∈ s.hist) ∧
      (s.k < e.hit_count + 1 →
        (recordAccess s id).hist = s.hist ∧
        (recordAccess s id).cache = id :: s.cache.erase id ∧ id ∈ s.cache)) := by
  have hoob : ¬ s.replacer_size < id := by omega
  obtain ⟨hnd, hh, hc, hdom⟩ := reach_invK hs hk
  constructor
  · intro hnone
    have hra : recordAccess s id =
        touch { s with hist := id :: s.hist,
                       entities := (id, ⟨0, true⟩) :: s.entities,
                       curr_size := s.curr_size + 1 } id ⟨0, true⟩ := by
      unfold recordAccess
      rw [if_neg hoob]
      simp only [hnone]
    have hents : updE id (⟨1, true⟩ : FrameEntity) ((id, ⟨0, true⟩) :: s.entities)
        = (id, ⟨1, true⟩) :: s.entities := by
      show (if id = id then (id, (⟨1, true⟩ : FrameEntity)) :: updE id ⟨1, true⟩ s.entities
            else _) = _
      rw [if_pos rfl, updE_of_lookupE_none hnone]
    rw [hra, touch_eq]
    by_cases h1 : (1 : Nat) = s.k
    · rw [if_pos (show (⟨0, true⟩ : FrameEntity).hit_count + 1 = s.k from h1)]
      refine ⟨?_, ?_, ?_⟩
      · show lookupE id (updE id ⟨0 + 1, true⟩ ((id, ⟨0, true⟩) :: s.entities)) = some ⟨1, true⟩
        rw [hents]
        simp [lookupE]
      · intro hlt
        omega
      · intro _
        exact ⟨List.erase_cons_head id s.hist, rfl⟩
    · rw [if_neg (show ¬ (⟨0, true⟩ : FrameEntity).hit_count + 1 = s.k from h1),
        if_neg (show ¬ s.k < (⟨0, true⟩ : FrameEntity).hit_count + 1 by show ¬ s.k < 0 + 1; omega)]
      refine ⟨?_, ?_, ?_⟩
      · show lookupE id (updE id ⟨0 + 1, true⟩ ((id, ⟨0, true⟩) :: s.entities)) = some ⟨1, true⟩
        rw [hents]
        simp [lookupE]
      · intro _
        exact ⟨rfl, rfl⟩
      · intro heq
        exact absurd heq h1
  · intro e hle
    have hra : recordAccess s id = touch s id e := by
      unfold recordAccess
      rw [if_neg hoob]
      simp only [hle]
    have hlu : lookupE id (updE id { e with hit_count := e.hit_count + 1 } s.entities)
        = some ⟨e.hit_count + 1, e.evictable⟩ := lookupE_updE_self hle
    rw [hra, touch_eq]
    by_cases h1 : e.hit_count + 1 = s.k
    · rw [if_pos h1]
      have hmem : id ∈ s.hist := by
        rcases hdom id (mem_keys_of_lookupE hle) with hx | hx
        · exact hx
        · rcases hc id hx with ⟨e', hle', hke'⟩
          rw [hle] at hle'
          cases hle'
          omega
      refine ⟨hlu, ?_, ?_, ?_⟩
      · intro hlt
        omega
      · intro _
        exact ⟨rfl, rfl, hmem⟩
      · intro hgt
        omega
    · by_cases h2 : s.k < e.hit_count + 1
      · rw [if_neg h1, if_pos h2]
        have hmem : id ∈ s.cache := by
          rcases hdom id (mem_keys_of_lookupE hle) with hx | hx
          · rcases hh id hx with ⟨e', hle', hke'⟩
            rw [hle] at hle'
            cases hle'
            omega
          · exact hx
        refine ⟨hlu, ?_, ?_, ?_⟩
        · intro hlt
          omega
        · intro heq
          exact absurd heq h1
        · intro _
          exact ⟨rfl, rfl, hmem⟩
      · rw [if_neg h1, if_neg h2]
        refine ⟨hlu, ?_, ?_, ?_⟩
        · intro _
          exact ⟨rfl, rfl⟩
        · intro heq
          exact absurd heq h1
        · intro hgt
          exact absurd hgt h2

theorem evict_written_eq_found (s : Replacer) :
    (evictFull s).written = (evictFull s).found := by
  unfold evictFull
  repeat' split
  all_goals rfl

/-- Claim C10: whenever `Evict` reports not-found it performs no write
through its out-parameter, so the caller's `frame_id` variable keeps
whatever value it held before the call. -/
theorem evict_no_write_claim (s : Replacer) (v : Nat)
    (h : (evictL s).1 = none) : evictCallerVar s v = v := by
  have hw : (evictFull s).written = none := by
    rw [evict_written_eq_found]
    exact h
  unfold evictCallerVar
  rw [hw]

theorem evict_no_write_claim_witness :
    (evictL (initL 1 1)).1 = none ∧ evictCallerVar (initL 1 1) 7 = 7 :=
  ⟨rfl, evict_no_write_claim (initL 1 1) 7 rfl⟩

theorem evict_claim_witness :
    (evictL (recordAccess (initL 4 2) 1)).1 = some 1 := by
  rcases (evict_claim (recordAccess (initL 4 2) 1)
      (ReachL.record (initL 4 2) 1 (ReachL.init 4 2)) (by decide)).2 (by decide)
    with ⟨id, hid, hcase, hev, hord⟩
  rw [hid]
  have hcomp : (recordAccess (initL 4 2) 1).hist.reverse.find?
      (isEvict (recordAccess (initL 4 2) 1).entities) = some 1 := by decide
  rcases hcase with ⟨hf, _⟩ | ⟨hf, _, _⟩
  · rw [hcomp] at hf
    cases hf
    rfl
  · rw [hcomp] at hf
    cases hf

theorem size_claim_witness :
    sizeL (recordAccess (initL 4 2) 1)
        = evictCount (recordAccess (initL 4 2) 1).entities ∧
    setEvictable (recordAccess (initL 4 2) 1) 9 true = recordAccess (initL 4 2) 1 := by
  have h := size_claim (recordAccess (initL 4 2) 1)
      (ReachL.record (initL 4 2) 1 (ReachL.init 4 2))
  exact ⟨h.1, h.2.1 9 true (by decide)⟩

theorem recordAccess_claim_witness :
    lookupE 1 (recordAccess (recordAccess (initL 4 2) 1) 1).entities = some ⟨2, true⟩ ∧
    (recordAccess (recordAccess (initL 4 2) 1) 1).cache
        = 1 :: (recordAccess (initL 4 2) 1).cache := by
  have h := recordAccess_claim (recordAccess (initL 4 2) 1)
      (ReachL.record (initL 4 2) 1 (ReachL.init 4 2)) (by decide) 1 (by decide)
  rcases h.2 ⟨1, true⟩ (by decide) with ⟨hlu, _, hmove, _⟩
  exact ⟨hlu, (hmove (by decide)).2.1⟩

end LruK

namespace ExtHash

variable {K V : Type} [DecidableEq K]

theorem getD_append_left {A : Type} {l l' : List A} {i : Nat} {d : A} (h : i < l.length) :
    (l ++ l').getD i d = l.getD i d := by
  rw [List.getD_eq_getElem?_getD, List.getD_eq_getElem?_getD, List.getElem?_append_left h]

theorem getD_append_right {A : Type} {l l' : List A} {i : Nat} {d : A} (h : l.length ≤ i) :
    (l ++ l').getD i d = l'.getD (i - l.length) d := by
  rw [List.getD_eq_getElem?_getD, List.getD_eq_getElem?_getD, List.getElem?_append_right h]

theorem getD_set_self {A : Type} {l : List A} {i : Nat} {a d : A} (h : i < l.length) :
    (l.set i a).getD i d = a := by
  rw [List.getD_eq_getElem?_getD, List.getElem?_set_self h]
  rfl

theorem getD_set_ne {A : Type} {l : List A} {i j : Nat} {a d : A} (h : i ≠ j) :
    (l.set i a).getD j d = l.getD j d := by
  rw [List.getD_eq_getElem?_getD, List.getD_eq_getElem?_getD, List.getElem?_set_ne h]

theorem getD_range_map {A : Type} (f : Nat → A) {n i : Nat} (h : i < n) (d : A) :
    ((List.range n).map f).getD i d = f i := by
  rw [List.getD_eq_getElem?_getD, List.getElem?_map, List.getElem?_range h]
  rfl

theorem indexOf_eq_mod (hash : K → Nat) (s : Table K V) (key : K) :
    indexOf hash s key = hash key % 2 ^ s.global_depth :=
  Nat.and_pow_two_sub_one_eq_mod _ _

theorem indexOf_lt (hash : K → Nat) (s : Table K V) (key : K) :
    indexOf hash s key < 2 ^ s.global_depth := by
  rw [indexOf_eq_mod]
  exact Nat.mod_lt _ (Nat.two_pow_pos _)

theorem mod_pow_mod {x g d : Nat} (h : d ≤ g) : x % 2 ^ g % 2 ^ d = x % 2 ^ d :=
  Nat.mod_mod_of_dvd x (Nat.pow_dvd_pow 2 h)

theorem mod_pow_succ_cases (x d : Nat) :
    x % 2 ^ (d + 1) = x % 2 ^ d ∨ x % 2 ^ (d + 1) = x % 2 ^ d + 2 ^ d := by
  have h2 : (2 : Nat) ^ (d + 1) = 2 ^ d * 2 := by rw [Nat.pow_succ]
  rw [h2, Nat.mod_mul]
  rcases Nat.mod_two_eq_zero_or_one (x / 2 ^ d) with h | h
  · rw [h]
    left
    omega
  · rw [h]
    right
    omega

theorem bucketFind_eq_none_iff {l : List (K × V)} {k : K} :
    bucketFind l k = none ↔ k ∉ l.map Prod.fst := by
  induction l with
  | nil => simp [bucketFind]
  | cons e t ih =>
      by_cases h : e.1 = k
      · simp [bucketFind, h]
      · have h2 : ¬ (k = e.1) := fun he => h he.symm
        simp [bucketFind, h, ih, h2]

theorem bucketOverwrite_none_iff {l : List (K × V)} {k : K} {v : V} :
    bucketOverwrite l k v = none ↔ k ∉ l.map Prod.fst := by
  induction l with
  | nil => simp [bucketOverwrite]
  | cons e t ih =>
      rw [List.map_cons]
      by_cases h : e.1 = k
      · simp [bucketOverwrite, h]
      · have h2 : ¬ (k = e.1) := fun he => h he.symm
        rw [bucketOverwrite, if_neg h, Option.map_eq_none', ih]
        simp [h2]

theorem bucketOverwrite_keys {l l' : List (K × V)} {k : K} {v : V}
    (h : bucketOverwrite l k v = some l') :
    l'.map Prod.fst = l.map Prod.fst ∧ l'.length = l.length := by
  induction l generalizing l' with
  | nil => simp [bucketOverwrite] at h
  | cons e t ih =>
      by_cases he : e.1 = k
      · rw [bucketOverwrite, if_pos he] at h
        cases h
        simp
      · rw [bucketOverwrite, if_neg he] at h
        cases ht : bucketOverwrite t k v with
        | none => rw [ht] at h; cases h
        | some t' =>
            rw [ht] at h
            cases h
            rcases ih ht with ⟨h1, h2⟩
            simp [h1, h2]

theorem bucketOverwrite_find {l l' : List (K × V)} {k : K} {v : V}
    (h : bucketOverwrite l k v = some l') : bucketFind l' k = some v := by
  induction l generalizing l' with
  | nil => simp [bucketOverwrite] at h
  | cons e t ih =>
      by_cases he : e.1 = k
      · rw [bucketOverwrite, if_pos he] at h
        cases h
        rw [bucketFind, if_pos he]
      · rw [bucketOverwrite, if_neg he] at h
        cases ht : bucketOverwrite t k v with
        | none => rw [ht] at h; cases h
        | some t' =>
            rw [ht] at h
            cases h
            rw [bucketFind, if_neg he]
            exact ih ht

theorem bucketOverwrite_find_ne {l l' : List (K × V)} {k k' : K} {v : V}
    (hne : k' ≠ k) (h : bucketOverwrite l k v = some l') :
    bucketFind l' k' = bucketFind l k' := by
  induction l generalizing l' with
  | nil => simp [bucketOverwrite] at h
  | cons e t ih =>
      by_cases he : e.1 = k
      · rw [bucketOverwrite, if_pos he] at h
        cases h
        have he' : ¬ (e.1 = k') := fun hx => hne ((hx ▸ he : k' = k))
        rw [bucketFind, bucketFind, if_neg he', if_neg he']
      · rw [bucketOverwrite, if_neg he] at h
        cases ht : bucketOverwrite t k v with
        | none => rw [ht] at h; cases h
        | some t' =>
            rw [ht] at h
            cases h
            by_cases he2 : e.1 = k'
            · rw [bucketFind, bucketFind, if_pos he2, if_pos he2]
            · rw [bucketFind, bucketFind, if_neg he2, if_neg he2]
              exact ih ht

theorem bucketFind_append_of_none {l l2 : List (K × V)} {k : K}
    (h : bucketFind l k = none) : bucketFind (l ++ l2) k = bucketFind l2 k := by
  induction l with
  | nil => simp
  | cons e t ih =>
      by_cases he : e.1 = k
      · rw [bucketFind, if_pos he] at h
        cases h
      · rw [bucketFind, if_neg he] at h
        rw [List.cons_append, bucketFind, if_neg he]
        exact ih h

theorem bucketFind_append_ne {l : List (K × V)} {k k' : K} {v : V} (hne : k' ≠ k) :
    bucketFind (l ++ [(k, v)]) k' = bucketFind l k' := by
  induction l with
  | nil =>
      have h2 : ¬ ((k, v).1 = k') := fun hx => hne hx.symm
      simp [bucketFind, h2]
  | cons e t ih =>
      by_cases he : e.1 = k'
      · rw [List.cons_append, bucketFind, if_pos he, bucketFind, if_pos he]
      · rw [List.cons_append, bucketFind, if_neg he, bucketFind, if_neg he]
        exact ih

theorem bucketRemove_none_iff {l : List (K × V)} {k : K} :
    bucketRemove l k = none ↔ k ∉ l.map Prod.fst := by
  induction l with
  | nil => simp [bucketRemove]
  | cons e t ih =>
      by_cases h : k = e.1
      · simp [bucketRemove, h]
      · have h2 : ¬ (e.1 = k) := fun he => h he.symm
        simp [bucketRemove, h, h2, ih]

theorem bucketRemove_sublist {l l' : List (K × V)} {k : K}
    (h : bucketRemove l k = some l') : List.Sublist l' l := by
  induction l generalizing l' with
  | nil => simp [bucketRemove] at h
  | cons e t ih =>
      by_cases he : k = e.1
      · rw [bucketRemove, if_pos he] at h
        cases h
        exact (List.Sublist.refl t).cons e
      · rw [bucketRemove, if_neg he] at h
        cases ht : bucketRemove t k with
        | none => rw [ht] at h; cases h
        | some t' =>
            rw [ht] at h
            cases h
            exact (ih ht).cons₂ e

theorem bucketRemove_find_self {l l' : List (K × V)} {k : K}
    (hn : (l.map Prod.fst).Nodup) (h : bucketRemove l k = some l') :
    bucketFind l' k = none := by
  induction l generalizing l' with
  | nil => simp [bucketRemove] at h
  | cons e t ih =>
      rw [List.map_cons, List.nodup_cons] at hn
      by_cases he : k = e.1
      · rw [bucketRemove, if_pos he] at h
        cases h
        rw [bucketFind_eq_none_iff]
        rw [he]
        exact hn.1
      · rw [bucketRemove, if_neg he] at h
        cases ht : bucketRemove t k with
        | none => rw [ht] at h; cases h
        | some t' =>
            rw [ht] at h
            cases h
            rw [bucketFind, if_neg (fun hx => he hx.symm)]
            exact ih hn.2 ht

theorem bucketRemove_find_ne {l l' : List (K × V)} {k k' : K} (hne : k' ≠ k)
    (h : bucketRemove l k = some l') : bucketFind l' k' = bucketFind l k' := by
  induction l generalizing l' with
  | nil => simp [bucketRemove] at h
  | cons e t ih =>
      by_cases he : k = e.1
      · rw [bucketRemove, if_pos he] at h
        cases h
        have he2 : ¬ (e.1 = k') := fun hx => hne ((he.trans hx).symm ▸ rfl)
        rw [bucketFind, if_neg he2]
      · rw [bucketRemove, if_neg he] at h
        cases ht : bucketRemove t k with
        | none => rw [ht] at h; cases h
        | some t' =>
            rw [ht] at h
            cases h
            by_cases he2 : e.1 = k'
            · rw [bucketFind, bucketFind, if_pos he2, if_pos he2]
            · rw [bucketFind, bucketFind, if_neg he2, if_neg he2]
              exact ih ht

theorem bucketFind_filter {p : K × V → Bool} {l : List (K × V)} {k : K}
    (hp : ∀ e ∈ l, e.1 = k → p e = true) :
    bucketFind (l.filter p) k = bucketFind l k := by
  induction l with
  | nil => simp
  | cons e t ih =>
      by_cases he : e.1 = k
      · rw [List.filter_cons, if_pos (hp e (List.mem_cons_self e t) he)]
        rw [bucketFind, if_pos he, bucketFind, if_pos he]
      · rw [List.filter_cons]
        by_cases hpe : p e
        · rw [if_pos (by simp [hpe])]
          rw [bucketFind, if_neg he, bucketFind, if_neg he]
          exact ih (fun x hx hxk => hp x (List.mem_cons_of_mem e hx) hxk)
        · rw [if_neg (by simp [hpe])]
          rw [bucketFind, if_neg he]
          exact ih (fun x hx hxk => hp x (List.mem_cons_of_mem e hx) hxk)

theorem splitStep_desc (hash : K → Nat) (s : Table K V) (idx : Nat)
    (hInv : Inv hash s) (hidx : idx < s.dir.length) :
    s.global_depth ≤ (splitStep hash s idx).global_depth ∧
    (bucketAt s idx).depth + 1 ≤ (splitStep hash s idx).global_depth ∧
    (splitStep hash s idx).bucket_size = s.bucket_size ∧
    (splitStep hash s idx).store.length = s.store.length + 2 ∧
    (splitStep hash s idx).dir.length = 2 ^ (splitStep hash s idx).global_depth ∧
    (∀ j, j < (splitStep hash s idx).dir.length →
      (j % 2 ^ (bucketAt s idx).depth ≠ idx % 2 ^ (bucketAt s idx).depth →
        dirIdx (splitStep hash s idx) j = dirIdx s (j % 2 ^ s.global_depth) ∧
        bucketAt (splitStep hash s idx) j = bucketAt s (j % 2 ^ s.global_depth)) ∧
      (j % 2 ^ (bucketAt s idx).depth = idx % 2 ^ (bucketAt s idx).depth →
        j % 2 ^ ((bucketAt s idx).depth + 1) = idx % 2 ^ (bucketAt s idx).depth →
        dirIdx (splitStep hash s idx) j = s.store.length ∧
        bucketAt (splitStep hash s idx) j =
          ⟨s.bucket_size, (bucketAt s idx).depth + 1,
            (bucketAt s idx).list.filter
              (fun e => hash e.1 % 2 ^ ((bucketAt s idx).depth + 1)
                == idx % 2 ^ (bucketAt s idx).depth)⟩) ∧
      (j % 2 ^ (bucketAt s idx).depth = idx % 2 ^ (bucketAt s idx).depth →
        j % 2 ^ ((bucketAt s idx).depth + 1) ≠ idx % 2 ^ (bucketAt s idx).depth →
        dirIdx (splitStep hash s idx) j = s.store.length + 1 ∧
        bucketAt (splitStep hash s idx) j =
          ⟨s.bucket_size, (bucketAt s idx).depth + 1,
            (bucketAt s idx).list.filter
              (fun e => !(hash e.1 % 2 ^ ((bucketAt s idx).depth + 1)
                == idx % 2 ^ (bucketAt s idx).depth))⟩)) := by
  obtain ⟨hlen, hbnd, hdep, hal, halc, hres, hcap⟩ := hInv
  have hdg : (bucketAt s idx).depth ≤ s.global_depth := hdep idx hidx
  -- the intermediate state after the possible directory doubling
  set s1 : Table K V :=
    if s.global_depth = (bucketAt s idx).depth
    then { s with global_depth := s.global_depth + 1, dir := s.dir ++ s.dir }
    else s with hs1
  have hs1store : s1.store = s.store := by
    rw [hs1]
    split <;> rfl
  have hs1g : s.global_depth ≤ s1.global_depth := by
    rw [hs1]
    split
    · show s.global_depth ≤ s.global_depth + 1
      omega
    · exact Nat.le_refl _
  have hs1g2 : (bucketAt s idx).depth + 1 ≤ s1.global_depth := by
    rw [hs1]
    split
    · rename_i hgd
      show (bucketAt s idx).depth + 1 ≤ s.global_depth + 1
      omega
    · rename_i hgd
      omega
  have hs1len : s1.dir.length = 2 ^ s1.global_depth := by
    rw [hs1]
    split
    · rename_i hgd
      show (s.dir ++ s.dir).length = 2 ^ (s.global_depth + 1)
      rw [List.length_append, hlen, Nat.pow_succ]
      omega
    · exact hlen
  have hs1get : ∀ j, j < 2 ^ s1.global_depth →
      s1.dir.getD j 0 = dirIdx s (j % 2 ^ s.global_depth) := by
    intro j hj
    rw [hs1] at hj ⊢
    unfold dirIdx
    by_cases hgd : s.global_depth = (bucketAt s idx).depth
    · rw [if_pos hgd] at hj ⊢
      have hj2 : j < 2 ^ (s.global_depth + 1) := hj
      show (s.dir ++ s.dir).getD j 0 = s.dir.getD (j % 2 ^ s.global_depth) 0
      by_cases hjg : j < 2 ^ s.global_depth
      · rw [getD_append_left (by rw [hlen]; exact hjg), Nat.mod_eq_of_lt hjg]
      · have h2g : (2 : Nat) ^ (s.global_depth + 1) = 2 ^ s.global_depth * 2 := Nat.pow_succ ..
        have hsub : j - 2 ^ s.global_depth < 2 ^ s.global_depth := by omega
        have hmod : j % 2 ^ s.global_depth = j - 2 ^ s.global_depth := by
          rw [Nat.mod_eq_sub_mod (by omega), Nat.mod_eq_of_lt hsub]
        rw [getD_append_right (by rw [hlen]; omega), hmod, hlen]
    · rw [if_neg hgd] at hj ⊢
      have hjl : j < 2 ^ s.global_depth := hj
      rw [Nat.mod_eq_of_lt hjl]
  -- the split state as an explicit record over s1
  have hsplit : splitStep hash s idx =
      { global_depth := s1.global_depth, bucket_size := s.bucket_size,
        num_buckets := s.num_buckets + 1,
        store := s1.store ++
          [⟨s.bucket_size, (bucketAt s idx).depth + 1,
            (bucketAt s idx).list.filter
              (fun e => indexOf hash s1 e.1 &&& (2 ^ ((bucketAt s idx).depth + 1) - 1)
                == idx &&& (2 ^ (bucketAt s idx).depth - 1))⟩,
           ⟨s.bucket_size, (bucketAt s idx).depth + 1,
            (bucketAt s idx).list.filter
              (fun e => !(indexOf hash s1 e.1 &&& (2 ^ ((bucketAt s idx).depth + 1) - 1)
                == idx &&& (2 ^ (bucketAt s idx).depth - 1)))⟩],
        dir := (List.range s1.dir.length).map (fun i =>
          if i &&& (2 ^ (bucketAt s idx).depth - 1) = idx &&& (2 ^ (bucketAt s idx).depth - 1)
          then (if i &&& (2 ^ ((bucketAt s idx).depth + 1) - 1)
                    = idx &&& (2 ^ (bucketAt s idx).depth - 1)
                then s1.store.length else s1.store.length + 1)
          else s1.dir.getD i 0) } := by
    rw [hs1]
    rfl
  -- translate the filter predicates to plain modular arithmetic
  have hfilt : ∀ e : K × V,
      (indexOf hash s1 e.1 &&& (2 ^ ((bucketAt s idx).depth + 1) - 1)
        == idx &&& (2 ^ (bucketAt s idx).depth - 1))
      = (hash e.1 % 2 ^ ((bucketAt s idx).depth + 1) == idx % 2 ^ (bucketAt s idx).depth) := by
    intro e
    rw [Nat.and_pow_two_sub_one_eq_mod, Nat.and_pow_two_sub_one_eq_mod,
      indexOf_eq_mod, mod_pow_mod hs1g2]
  have hB1 : (bucketAt s idx).list.filter
      (fun e => indexOf hash s1 e.1 &&& (2 ^ ((bucketAt s idx).depth + 1) - 1)
        == idx &&& (2 ^ (bucketAt s idx).depth - 1))
      = (bucketAt s idx).list.filter
        (fun e => hash e.1 % 2 ^ ((bucketAt s idx).depth + 1)
          == idx % 2 ^ (bucketAt s idx).depth) :=
    List.filter_congr (fun e _ => hfilt e)
  have hB2 : (bucketAt s idx).list.filter
      (fun e => !(indexOf hash s1 e.1 &&& (2 ^ ((bucketAt s idx).depth + 1) - 1)
        == idx &&& (2 ^ (bucketAt s idx).depth - 1)))
      = (bucketAt s idx).list.filter
        (fun e => !(hash e.1 % 2 ^ ((bucketAt s idx).depth + 1)
          == idx % 2 ^ (bucketAt s idx).depth)) :=
    List.filter_congr (fun e _ => by rw [hfilt e])
  have hglob : (splitStep hash s idx).global_depth = s1.global_depth := by
    rw [hsplit]
  have hdirlen : (splitStep hash s idx).dir.length = 2 ^ s1.global_depth := by
    rw [hsplit]
    show ((List.range s1.dir.length).map _).length = _
    rw [List.length_map, List.length_range, hs1len]
  refine ⟨by rw [hglob]; exact hs1g, by rw [hglob]; exact hs1g2, by rw [hsplit], ?_, ?_, ?_⟩
  · rw [hsplit]
    show (s1.store ++ [_, _]).length = s.store.length + 2
    rw [List.length_append, hs1store]
    rfl
  · rw [hdirlen, hglob]
  · intro j hj
    rw [hdirlen] at hj
    have hgetj : dirIdx (splitStep hash s idx) j =
        (if j % 2 ^ (bucketAt s idx).depth = idx % 2 ^ (bucketAt s idx).depth
         then (if j % 2 ^ ((bucketAt s idx).depth + 1) = idx % 2 ^ (bucketAt s idx).depth
               then s1.store.length else s1.store.length + 1)
         else s1.dir.getD j 0) := by
      show (splitStep hash s idx).dir.getD j 0 = _
      rw [hsplit]
      show ((List.range s1.dir.length).map _).getD j 0 = _
      rw [getD_range_map _ (by rw [hs1len]; exact hj) 0]
      simp only [Nat.and_pow_two_sub_one_eq_mod]
    refine ⟨?_, ?_, ?_⟩
    · intro hne
      have hdir2 : dirIdx (splitStep hash s idx) j = dirIdx s (j % 2 ^ s.global_depth) := by
        rw [hgetj, if_neg hne]
        exact hs1get j hj
      refine ⟨hdir2, ?_⟩
      show (splitStep hash s idx).store.getD (dirIdx (splitStep hash s idx) j) _ = _
      rw [hdir2, hsplit]
      show (s1.store ++ _).getD _ _ = _
      rw [hs1store]
      have hjb : j % 2 ^ s.global_depth < s.dir.length := by
        rw [hlen]
        exact Nat.mod_lt _ (Nat.two_pow_pos _)
      rw [getD_append_left (hbnd _ hjb)]
      rfl
    · intro h1 h2
      have hdir2 : dirIdx (splitStep hash s idx) j = s.store.length := by
        rw [hgetj, if_pos h1, if_pos h2, hs1store]
      refine ⟨hdir2, ?_⟩
      show (splitStep hash s idx).store.getD (dirIdx (splitStep hash s idx) j) _ = _
      rw [hdir2, hsplit]
      show (s1.store ++ _).getD _ _ = _
      rw [hs1store, getD_append_right (Nat.le_refl _), Nat.sub_self]
      show (⟨s.bucket_size, (bucketAt s idx).depth + 1, _⟩ : Bucket K V) = _
      rw [hB1]
    · intro h1 h2
      have hdir2 : dirIdx (splitStep hash s idx) j = s.store.length + 1 := by
        rw [hgetj, if_pos h1, if_neg h2, hs1store]
      refine ⟨hdir2, ?_⟩
      show (splitStep hash s idx).store.getD (dirIdx (splitStep hash s idx) j) _ = _
      rw [hdir2, hsplit]
      show (s1.store ++ _).getD _ _ = _
      rw [hs1store, getD_append_right (by omega)]
      have hsub : s.store.length + 1 - s.store.length = 1 := by omega
      rw [hsub]
      show (⟨s.bucket_size, (bucketAt s idx).depth + 1, _⟩ : Bucket K V) = _
      rw [hB2]

end ExtHash

namespace ExtHash

variable {K V : Type} [DecidableEq K]

theorem low_lt {idx d : Nat} : idx % 2 ^ d < 2 ^ d :=
  Nat.mod_lt _ (Nat.two_pow_pos _)

theorem mod_succ_of_mod_eq_low {j idx d : Nat}
    (h : j % 2 ^ (d + 1) = idx % 2 ^ d) : j % 2 ^ d = idx % 2 ^ d := by
  have h1 : j % 2 ^ d = j % 2 ^ (d + 1) % 2 ^ d := (mod_pow_mod (Nat.le_succ d)).symm
  rw [h1, h, Nat.mod_eq_of_lt low_lt]

theorem mod_succ_of_mod_eq_high {j idx d : Nat}
    (h : j % 2 ^ (d + 1) = idx % 2 ^ d + 2 ^ d) : j % 2 ^ d = idx % 2 ^ d := by
  have h1 : j % 2 ^ d = j % 2 ^ (d + 1) % 2 ^ d := (mod_pow_mod (Nat.le_succ d)).symm
  rw [h1, h, Nat.add_mod_right, Nat.mod_eq_of_lt low_lt]

theorem mod_succ_cases_low {j idx d : Nat} (h : j % 2 ^ d = idx % 2 ^ d) :
    j % 2 ^ (d + 1) = idx % 2 ^ d ∨ j % 2 ^ (d + 1) = idx % 2 ^ d + 2 ^ d := by
  rcases mod_pow_succ_cases j d with h2 | h2
  · left
    rw [h2, h]
  · right
    rw [h2, h]

theorem newTable_inv (hash : K → Nat) (sz : Nat) : Inv hash (newTable K V sz) := by
  refine ⟨rfl, ?_, ?_, ?_, ?_, ?_, ?_⟩
  · intro i hi
    have hi0 : i = 0 := by simpa [newTable] using hi
    subst hi0
    show (0 : Nat) < 1
    omega
  · intro i hi
    have hi0 : i = 0 := by simpa [newTable] using hi
    subst hi0
    show (0 : Nat) ≤ 0
    omega
  · intro i hi j hj _
    have hi0 : i = 0 := by simpa [newTable] using hi
    have hj0 : j = 0 := by simpa [newTable] using hj
    rw [hi0, hj0]
  · intro i hi j hj _
    have hi0 : i = 0 := by simpa [newTable] using hi
    have hj0 : j = 0 := by simpa [newTable] using hj
    rw [hi0, hj0]
  · intro i hi e he
    have hi0 : i = 0 := by simpa [newTable] using hi
    subst hi0
    cases he
  · intro i hi
    have hi0 : i = 0 := by simpa [newTable] using hi
    subst hi0
    exact ⟨rfl, by show (0 : Nat) ≤ sz; omega, List.nodup_nil⟩

theorem splitStep_inv (hash : K → Nat) (s : Table K V) (idx : Nat)
    (hInv : Inv hash s) (hidx : idx < s.dir.length) :
    Inv hash (splitStep hash s idx) := by
  obtain ⟨hg1, hd1, hbs, hstlen, hdl, hslots⟩ := splitStep_desc hash s idx hInv hidx
  obtain ⟨hlen, hbnd, hdep, hal, halc, hres, hcap⟩ := hInv
  have hdg : (bucketAt s idx).depth ≤ s.global_depth := hdep idx hidx
  have hmodlt : ∀ j : Nat, j % 2 ^ s.global_depth < s.dir.length := by
    intro j
    rw [hlen]
    exact Nat.mod_lt _ (Nat.two_pow_pos _)
  have hmodg : ∀ j dd : Nat, dd ≤ s.global_depth →
      j % 2 ^ s.global_depth % 2 ^ dd = j % 2 ^ dd := fun j dd hdd => mod_pow_mod hdd
  -- a slot outside the split class cannot be related to one inside it
  have hCkeep : ∀ j j2 : Nat,
      j % 2 ^ (bucketAt s idx).depth ≠ idx % 2 ^ (bucketAt s idx).depth →
      j % 2 ^ (bucketAt s (j % 2 ^ s.global_depth)).depth
        = j2 % 2 ^ (bucketAt s (j % 2 ^ s.global_depth)).depth →
      j2 % 2 ^ (bucketAt s idx).depth ≠ idx % 2 ^ (bucketAt s idx).depth := by
    intro j j2 hjc hres2 hcon
    have hjg := hmodlt j
    have hj2g := hmodlt j2
    have hdo : (bucketAt s (j % 2 ^ s.global_depth)).depth ≤ s.global_depth := hdep _ hjg
    have e1 : j % 2 ^ s.global_depth % 2 ^ (bucketAt s (j % 2 ^ s.global_depth)).depth
        = j2 % 2 ^ s.global_depth % 2 ^ (bucketAt s (j % 2 ^ s.global_depth)).depth := by
      rw [hmodg _ _ hdo, hmodg _ _ hdo]
      exact hres2
    have e2 : dirIdx s (j % 2 ^ s.global_depth) = dirIdx s (j2 % 2 ^ s.global_depth) :=
      hal _ hjg _ hj2g e1
    have e3 : idx % 2 ^ (bucketAt s idx).depth
        = j2 % 2 ^ s.global_depth % 2 ^ (bucketAt s idx).depth := by
      rw [hmodg _ _ hdg]
      exact hcon.symm
    have e4 : dirIdx s idx = dirIdx s (j2 % 2 ^ s.global_depth) := hal idx hidx _ hj2g e3
    have e5 : dirIdx s idx = dirIdx s (j % 2 ^ s.global_depth) := by rw [e4, ← e2]
    have e6 := halc idx hidx _ hjg e5
    rw [hmodg _ _ hdg] at e6
    exact hjc e6.symm
  refine ⟨hdl, ?_, ?_, ?_, ?_, ?_, ?_⟩
  · -- directory entries are valid store indices
    intro j hj
    rcases hslots j hj with ⟨hC, hA, hB⟩
    by_cases hjc : j % 2 ^ (bucketAt s idx).depth = idx % 2 ^ (bucketAt s idx).depth
    · by_cases hja : j % 2 ^ ((bucketAt s idx).depth + 1) = idx % 2 ^ (bucketAt s idx).depth
      · rw [(hA hjc hja).1, hstlen]
        omega
      · rw [(hB hjc hja).1, hstlen]
        omega
    · rw [(hC hjc).1, hstlen]
      have := hbnd _ (hmodlt j)
      omega
  · -- local depth at most global depth
    intro j hj
    by_cases hjc : j % 2 ^ (bucketAt s idx).depth = idx % 2 ^ (bucketAt s idx).depth
    · by_cases hja : j % 2 ^ ((bucketAt s idx).depth + 1) = idx % 2 ^ (bucketAt s idx).depth
      · rw [((hslots j hj).2.1 hjc hja).2]
        exact hd1
      · rw [((hslots j hj).2.2 hjc hja).2]
        exact hd1
    · rw [((hslots j hj).1 hjc).2]
      calc (bucketAt s (j % 2 ^ s.global_depth)).depth
          ≤ s.global_depth := hdep _ (hmodlt j)
        _ ≤ (splitStep hash s idx).global_depth := hg1
  · -- equal low bits imply one shared bucket
    intro i hi j hj hr
    by_cases hic : i % 2 ^ (bucketAt s idx).depth = idx % 2 ^ (bucketAt s idx).depth
    · by_cases hia : i % 2 ^ ((bucketAt s idx).depth + 1) = idx % 2 ^ (bucketAt s idx).depth
      · have hAi := (hslots i hi).2.1 hic hia
        rw [hAi.2] at hr
        have hr2 : i % 2 ^ ((bucketAt s idx).depth + 1)
            = j % 2 ^ ((bucketAt s idx).depth + 1) := hr
        have hja : j % 2 ^ ((bucketAt s idx).depth + 1) = idx % 2 ^ (bucketAt s idx).depth := by
          rw [← hr2, hia]
        have hjc : j % 2 ^ (bucketAt s idx).depth = idx % 2 ^ (bucketAt s idx).depth :=
          mod_succ_of_mod_eq_low hja
        rw [hAi.1, ((hslots j hj).2.1 hjc hja).1]
      · have hBi := (hslots i hi).2.2 hic hia
        have hib : i % 2 ^ ((bucketAt s idx).depth + 1)
            = idx % 2 ^ (bucketAt s idx).depth + 2 ^ (bucketAt s idx).depth := by
          rcases mod_succ_cases_low hic with h | h
          · exact absurd h hia
          · exact h
        rw [hBi.2] at hr
        have hr2 : i % 2 ^ ((bucketAt s idx).depth + 1)
            = j % 2 ^ ((bucketAt s idx).depth + 1) := hr
        have hjb : j % 2 ^ ((bucketAt s idx).depth + 1)
            = idx % 2 ^ (bucketAt s idx).depth + 2 ^ (bucketAt s idx).depth := by
          rw [← hr2, hib]
        have hjc : j % 2 ^ (bucketAt s idx).depth = idx % 2 ^ (bucketAt s idx).depth :=
          mod_succ_of_mod_eq_high hjb
        have hja : ¬ j % 2 ^ ((bucketAt s idx).depth + 1)
            = idx % 2 ^ (bucketAt s idx).depth := by
          rw [hjb]
          have := Nat.two_pow_pos (bucketAt s idx).depth
          omega
        rw [hBi.1, ((hslots j hj).2.2 hjc hja).1]
    · have hCi := (hslots i hi).1 hic
      rw [hCi.2] at hr
      have hr2 : i % 2 ^ (bucketAt s (i % 2 ^ s.global_depth)).depth
          = j % 2 ^ (bucketAt s (i % 2 ^ s.global_depth)).depth := hr
      have hjc : ¬ j % 2 ^ (bucketAt s idx).depth = idx % 2 ^ (bucketAt s idx).depth :=
        hCkeep i j hic hr2
      have hCj := (hslots j hj).1 hjc
      rw [hCi.1, hCj.1]
      have hdo : (bucketAt s (i % 2 ^ s.global_depth)).depth ≤ s.global_depth :=
        hdep _ (hmodlt i)
      exact hal _ (hmodlt i) _ (hmodlt j)
        (by rw [hmodg _ _ hdo, hmodg _ _ hdo]; exact hr2)
  · -- one shared bucket implies equal low bits
    intro i hi j hj heq
    by_cases hic : i % 2 ^ (bucketAt s idx).depth = idx % 2 ^ (bucketAt s idx).depth
    · by_cases hia : i % 2 ^ ((bucketAt s idx).depth + 1) = idx % 2 ^ (bucketAt s idx).depth
      · have hAi := (hslots i hi).2.1 hic hia
        rw [hAi.2]
        show i % 2 ^ ((bucketAt s idx).depth + 1) = j % 2 ^ ((bucketAt s idx).depth + 1)
        by_cases hjc : j % 2 ^ (bucketAt s idx).depth = idx % 2 ^ (bucketAt s idx).depth
        · by_cases hja : j % 2 ^ ((bucketAt s idx).depth + 1)
              = idx % 2 ^ (bucketAt s idx).depth
          · rw [hia, hja]
          · have hBj := (hslots j hj).2.2 hjc hja
            rw [hAi.1, hBj.1] at heq
            omega
        · have hCj := (hslots j hj).1 hjc
          rw [hAi.1, hCj.1] at heq
          have := hbnd _ (hmodlt j)
          omega
      · have hBi := (hslots i hi).2.2 hic hia
        rw [hBi.2]
        show i % 2 ^ ((bucketAt s idx).depth + 1) = j % 2 ^ ((bucketAt s idx).depth + 1)
        by_cases hjc : j % 2 ^ (bucketAt s idx).depth = idx % 2 ^ (bucketAt s idx).depth
        · by_cases hja : j % 2 ^ ((bucketAt s idx).depth + 1)
              = idx % 2 ^ (bucketAt s idx).depth
          · have hAj := (hslots j hj).2.1 hjc hja
            rw [hBi.1, hAj.1] at heq
            omega
          · have hib : i % 2 ^ ((bucketAt s idx).depth + 1)
                = idx % 2 ^ (bucketAt s idx).depth + 2 ^ (bucketAt s idx).depth := by
              rcases mod_succ_cases_low hic with h | h
              · exact absurd h hia
              · exact h
            have hjb : j % 2 ^ ((bucketAt s idx).depth + 1)
                = idx % 2 ^ (bucketAt s idx).depth + 2 ^ (bucketAt s idx).depth := by
              rcases mod_succ_cases_low hjc with h | h
              · exact absurd h hja
              · exact h
            rw [hib, hjb]
        · have hCj := (hslots j hj).1 hjc
          rw [hBi.1, hCj.1] at heq
          have := hbnd _ (hmodlt j)
          omega
    · have hCi := (hslots i hi).1 hic
      rw [hCi.2]
      by_cases hjc : j % 2 ^ (bucketAt s idx).depth = idx % 2 ^ (bucketAt s idx).depth
      · by_cases hja : j % 2 ^ ((bucketAt s idx).depth + 1)
            = idx % 2 ^ (bucketAt s idx).depth
        · have hAj := (hslots j hj).2.1 hjc hja
          rw [hCi.1, hAj.1] at heq
          have := hbnd _ (hmodlt i)
          omega
        · have hBj := (hslots j hj).2.2 hjc hja
          rw [hCi.1, hBj.1] at heq
          have := hbnd _ (hmodlt i)
          omega
      · have hCj := (hslots j hj).1 hjc
        rw [hCi.1, hCj.1] at heq
        have hdo : (bucketAt s (i % 2 ^ s.global_depth)).depth ≤ s.global_depth :=
          hdep _ (hmodlt i)
        have h1 := halc _ (hmodlt i) _ (hmodlt j) heq
        rw [hmodg _ _ hdo, hmodg _ _ hdo] at h1
        exact h1
  · -- entries agree with their slot on the low depth bits
    intro j hj e he
    by_cases hjc : j % 2 ^ (bucketAt s idx).depth = idx % 2 ^ (bucketAt s idx).depth
    · by_cases hja : j % 2 ^ ((bucketAt s idx).depth + 1) = idx % 2 ^ (bucketAt s idx).depth
      · have hAj := (hslots j hj).2.1 hjc hja
        rw [hAj.2] at he ⊢
        show hash e.1 % 2 ^ ((bucketAt s idx).depth + 1) = j % 2 ^ ((bucketAt s idx).depth + 1)
        have hm := List.mem_filter.mp he
        have hp : hash e.1 % 2 ^ ((bucketAt s idx).depth + 1)
            = idx % 2 ^ (bucketAt s idx).depth := by
          simpa using hm.2
        rw [hp, hja]
      · have hBj := (hslots j hj).2.2 hjc hja
        rw [hBj.2] at he ⊢
        show hash e.1 % 2 ^ ((bucketAt s idx).depth + 1) = j % 2 ^ ((bucketAt s idx).depth + 1)
        have hm := List.mem_filter.mp he
        have hp : ¬ hash e.1 % 2 ^ ((bucketAt s idx).depth + 1)
            = idx % 2 ^ (bucketAt s idx).depth := by
          simpa using hm.2
        have hmem := hm.1
        have hlowres : hash e.1 % 2 ^ (bucketAt s idx).depth
            = idx % 2 ^ (bucketAt s idx).depth := hres idx hidx e hmem
        have hhigh : hash e.1 % 2 ^ ((bucketAt s idx).depth + 1)
            = idx % 2 ^ (bucketAt s idx).depth + 2 ^ (bucketAt s idx).depth := by
          rcases mod_succ_cases_low hlowres with h | h
          · exact absurd h hp
          · exact h
        have hjb : j % 2 ^ ((bucketAt s idx).depth + 1)
            = idx % 2 ^ (bucketAt s idx).depth + 2 ^ (bucketAt s idx).depth := by
          rcases mod_succ_cases_low hjc with h | h
          · exact absurd h hja
          · exact h
        rw [hhigh, hjb]
    · have hCj := (hslots j hj).1 hjc
      rw [hCj.2] at he ⊢
      have hdo : (bucketAt s (j % 2 ^ s.global_depth)).depth ≤ s.global_depth :=
        hdep _ (hmodlt j)
      have h1 := hres _ (hmodlt j) e he
      rw [h1, hmodg _ _ hdo]
  · -- capacity, configured size, and unique keys
    intro j hj
    by_cases hjc : j % 2 ^ (bucketAt s idx).depth = idx % 2 ^ (bucketAt s idx).depth
    · by_cases hja : j % 2 ^ ((bucketAt s idx).depth + 1) = idx % 2 ^ (bucketAt s idx).depth
      · have hAj := (hslots j hj).2.1 hjc hja
        rw [hAj.2, hbs]
        refine ⟨rfl, ?_, ?_⟩
        · calc ((bucketAt s idx).list.filter _).length
              ≤ (bucketAt s idx).list.length := List.length_filter_le _ _
            _ ≤ s.bucket_size := (hcap idx hidx).2.1
        · exact List.Nodup.sublist
            (List.Sublist.map Prod.fst (List.filter_sublist _)) (hcap idx hidx).2.2
      · have hBj := (hslots j hj).2.2 hjc hja
        rw [hBj.2, hbs]
        refine ⟨rfl, ?_, ?_⟩
        · calc ((bucketAt s idx).list.filter _).length
              ≤ (bucketAt s idx).list.length := List.length_filter_le _ _
            _ ≤ s.bucket_size := (hcap idx hidx).2.1
        · exact List.Nodup.sublist
            (List.Sublist.map Prod.fst (List.filter_sublist _)) (hcap idx hidx).2.2
    · have hCj := (hslots j hj).1 hjc
      rw [hCj.2, hbs]
      exact hcap _ (hmodlt j)

theorem splitStep_find (hash : K → Nat) (s : Table K V) (idx : Nat)
    (hInv : Inv hash s) (hidx : idx < s.dir.length) (k' : K) :
    findT hash (splitStep hash s idx) k' = findT hash s k' := by
  obtain ⟨hg1, hd1, hbs, hstlen, hdl, hslots⟩ := splitStep_desc hash s idx hInv hidx
  obtain ⟨hlen, hbnd, hdep, hal, halc, hres, hcap⟩ := hInv
  have hdg : (bucketAt s idx).depth ≤ s.global_depth := hdep idx hidx
  have hd2 : (bucketAt s idx).depth ≤ (splitStep hash s idx).global_depth := by omega
  have hix2lt : indexOf hash (splitStep hash s idx) k' < (splitStep hash s idx).dir.length := by
    rw [hdl]
    exact indexOf_lt hash _ k'
  have hixlt : indexOf hash s k' < s.dir.length := by
    rw [hlen]
    exact indexOf_lt hash s k'
  have hkd : indexOf hash (splitStep hash s idx) k' % 2 ^ (bucketAt s idx).depth
      = hash k' % 2 ^ (bucketAt s idx).depth := by
    rw [indexOf_eq_mod, mod_pow_mod hd2]
  have hkd1 : indexOf hash (splitStep hash s idx) k' % 2 ^ ((bucketAt s idx).depth + 1)
      = hash k' % 2 ^ ((bucketAt s idx).depth + 1) := by
    rw [indexOf_eq_mod, mod_pow_mod hd1]
  have hkd2 : indexOf hash s k' % 2 ^ (bucketAt s idx).depth
      = hash k' % 2 ^ (bucketAt s idx).depth := by
    rw [indexOf_eq_mod, mod_pow_mod hdg]
  by_cases hc : indexOf hash (splitStep hash s idx) k' % 2 ^ (bucketAt s idx).depth
      = idx % 2 ^ (bucketAt s idx).depth
  · -- the key routes into the split class: its entries sit in one of the two new buckets
    have hixc : indexOf hash s k' % 2 ^ (bucketAt s idx).depth
        = idx % 2 ^ (bucketAt s idx).depth := by
      rw [hkd2, ← hkd]
      exact hc
    have hsame : dirIdx s idx = dirIdx s (indexOf hash s k') :=
      hal idx hidx _ hixlt (by rw [hixc])
    have hbsame : bucketAt s (indexOf hash s k') = bucketAt s idx := by
      unfold bucketAt
      rw [hsame]
    by_cases ha : indexOf hash (splitStep hash s idx) k' % 2 ^ ((bucketAt s idx).depth + 1)
        = idx % 2 ^ (bucketAt s idx).depth
    · have hA := (hslots _ hix2lt).2.1 hc ha
      have hkey : hash k' % 2 ^ ((bucketAt s idx).depth + 1)
          = idx % 2 ^ (bucketAt s idx).depth := by
        rw [← hkd1]
        exact ha
      unfold findT
      rw [hA.2, hbsame]
      exact bucketFind_filter (fun e _ hek => by simp [hek, hkey])
    · have hB := (hslots _ hix2lt).2.2 hc ha
      have hkey : ¬ hash k' % 2 ^ ((bucketAt s idx).depth + 1)
          = idx % 2 ^ (bucketAt s idx).depth := by
        rw [← hkd1]
        exact ha
      unfold findT
      rw [hB.2, hbsame]
      exact bucketFind_filter (fun e _ hek => by simp [hek, hkey])
  · -- the key routes outside the split class: its bucket is untouched
    have hC := (hslots _ hix2lt).1 hc
    have hgle : s.global_depth ≤ (splitStep hash s idx).global_depth := hg1
    have hmodeq : indexOf hash (splitStep hash s idx) k' % 2 ^ s.global_depth
        = indexOf hash s k' := by
      rw [indexOf_eq_mod, indexOf_eq_mod, mod_pow_mod hgle]
    unfold findT
    rw [hC.2, hmodeq]

theorem splitStep_target (hash : K → Nat) (s : Table K V) (key : K)
    (hInv : Inv hash s) :
    (bucketAt (splitStep hash s (indexOf hash s key))
        (indexOf hash (splitStep hash s (indexOf hash s key)) key)).depth
      = (bucketAt s (indexOf hash s key)).depth + 1 ∧
    List.Sublist
      (bucketAt (splitStep hash s (indexOf hash s key))
        (indexOf hash (splitStep hash s (indexOf hash s key)) key)).list
      (bucketAt s (indexOf hash s key)).list ∧
    (splitStep hash s (indexOf hash s key)).bucket_size = s.bucket_size := by
  have hidx : indexOf hash s key < s.dir.length := by
    rw [hInv.1]
    exact indexOf_lt hash s key
  obtain ⟨hg1, hd1, hbs, hstlen, hdl, hslots⟩ :=
    splitStep_desc hash s (indexOf hash s key) hInv hidx
  obtain ⟨hlen, hbnd, hdep, hal, halc, hres, hcap⟩ := hInv
  have hdg : (bucketAt s (indexOf hash s key)).depth ≤ s.global_depth := hdep _ hidx
  have hd2 : (bucketAt s (indexOf hash s key)).depth
      ≤ (splitStep hash s (indexOf hash s key)).global_depth := by omega
  have hix2lt : indexOf hash (splitStep hash s (indexOf hash s key)) key
      < (splitStep hash s (indexOf hash s key)).dir.length := by
    rw [hdl]
    exact indexOf_lt hash _ key
  have hc : indexOf hash (splitStep hash s (indexOf hash s key)) key
        % 2 ^ (bucketAt s (indexOf hash s key)).depth
      = indexOf hash s key % 2 ^ (bucketAt s (indexOf hash s key)).depth := by
    calc indexOf hash (splitStep hash s (indexOf hash s key)) key
          % 2 ^ (bucketAt s (indexOf hash s key)).depth
        = hash key % 2 ^ (splitStep hash s (indexOf hash s key)).global_depth
            % 2 ^ (bucketAt s (indexOf hash s key)).depth := by
          rw [indexOf_eq_mod]
      _ = hash key % 2 ^ (bucketAt s (indexOf hash s key)).depth := mod_pow_mod hd2
      _ = hash key % 2 ^ s.global_depth % 2 ^ (bucketAt s (indexOf hash s key)).depth :=
          (mod_pow_mod hdg).symm
      _ = indexOf hash s key % 2 ^ (bucketAt s (indexOf hash s key)).depth := by
          rw [indexOf_eq_mod]
  by_cases ha : indexOf hash (splitStep hash s (indexOf hash s key)) key
        % 2 ^ ((bucketAt s (indexOf hash s key)).depth + 1)
      = indexOf hash s key % 2 ^ (bucketAt s (indexOf hash s key)).depth
  · have hA := (hslots _ hix2lt).2.1 hc ha
    rw [hA.2]
    exact ⟨rfl, List.filter_sublist _, hbs⟩
  · have hB := (hslots _ hix2lt).2.2 hc ha
    rw [hB.2]
    exact ⟨rfl, List.filter_sublist _, hbs⟩

theorem hash_mod_indexOf (hash : K → Nat) (s : Table K V) (key : K) (dd : Nat)
    (hdd : dd ≤ s.global_depth) :
    hash key % 2 ^ dd = indexOf hash s key % 2 ^ dd := by
  rw [indexOf_eq_mod, mod_pow_mod hdd]

theorem bucketInsert_true {b : Bucket K V} {k : K} {v : V} {b' : Bucket K V}
    (h : bucketInsert b k v = (true, b')) :
    b'.depth = b.depth ∧ b'.size = b.size ∧
    ((∃ l', bucketOverwrite b.list k v = some l' ∧ b'.list = l') ∨
     (bucketOverwrite b.list k v = none ∧ b.list.length < b.size ∧
      b'.list = b.list ++ [(k, v)])) := by
  unfold bucketInsert at h
  cases ho : bucketOverwrite b.list k v with
  | some l =>
      rw [ho] at h
      have hb : { b with list := l } = b' := congrArg Prod.snd h
      rw [← hb]
      exact ⟨rfl, rfl, Or.inl ⟨l, rfl, rfl⟩⟩
  | none =>
      rw [ho] at h
      by_cases hf : b.size ≤ b.list.length
      · rw [if_pos hf] at h
        have hfalse : False := by simpa using congrArg Prod.fst h
        exact hfalse.elim
      · rw [if_neg hf] at h
        have hb : { b with list := b.list ++ [(k, v)] } = b' := congrArg Prod.snd h
        rw [← hb]
        exact ⟨rfl, rfl, Or.inr ⟨rfl, by omega, rfl⟩⟩

theorem bucketInsert_false {b : Bucket K V} {k : K} {v : V} {b' : Bucket K V}
    (h : bucketInsert b k v = (false, b')) :
    bucketOverwrite b.list k v = none ∧ b.size ≤ b.list.length := by
  unfold bucketInsert at h
  cases ho : bucketOverwrite b.list k v with
  | some l =>
      rw [ho] at h
      have hfalse : False := by simpa using congrArg Prod.fst h
      exact hfalse.elim
  | none =>
      rw [ho] at h
      by_cases hf : b.size ≤ b.list.length
      · exact ⟨rfl, hf⟩
      · rw [if_neg hf] at h
        have hfalse : False := by simpa using congrArg Prod.fst h
        exact hfalse.elim

theorem insertStep_inv (hash : K → Nat) (s : Table K V) (key : K) (v : V) {b' : Bucket K V}
    (hInv : Inv hash s)
    (h : bucketInsert (bucketAt s (indexOf hash s key)) key v = (true, b')) :
    Inv hash { s with store := s.store.set (dirIdx s (indexOf hash s key)) b' } := by
  obtain ⟨hlen, hbnd, hdep, hal, halc, hres, hcap⟩ := hInv
  have hidx : indexOf hash s key < s.dir.length := by
    rw [hlen]
    exact indexOf_lt hash s key
  have hbi : dirIdx s (indexOf hash s key) < s.store.length := hbnd _ hidx
  obtain ⟨hdep', hsize', hlist'⟩ := bucketInsert_true h
  have hdix : ∀ j : Nat,
      dirIdx { s with store := s.store.set (dirIdx s (indexOf hash s key)) b' } j
        = dirIdx s j := fun j => rfl
  have hbEq : ∀ j : Nat, dirIdx s j = dirIdx s (indexOf hash s key) →
      bucketAt { s with store := s.store.set (dirIdx s (indexOf hash s key)) b' } j = b' := by
    intro j hj
    unfold bucketAt
    rw [hdix, hj]
    exact getD_set_self hbi
  have hbNe : ∀ j : Nat, ¬ dirIdx s j = dirIdx s (indexOf hash s key) →
      bucketAt { s with store := s.store.set (dirIdx s (indexOf hash s key)) b' } j
        = bucketAt s j := by
    intro j hj
    unfold bucketAt
    rw [hdix]
    exact getD_set_ne (fun he => hj he.symm)
  have hsame : ∀ j : Nat, j < s.dir.length → dirIdx s j = dirIdx s (indexOf hash s key) →
      bucketAt s j = bucketAt s (indexOf hash s key) := by
    intro j hj hdj
    unfold bucketAt
    rw [hdj]
  have hdeq : ∀ j : Nat, j < s.dir.length →
      (bucketAt { s with store := s.store.set (dirIdx s (indexOf hash s key)) b' } j).depth
        = (bucketAt s j).depth := by
    intro j hj
    by_cases hdj : dirIdx s j = dirIdx s (indexOf hash s key)
    · rw [hbEq j hdj, hsame j hj hdj, hdep']
    · rw [hbNe j hdj]
  refine ⟨hlen, ?_, ?_, ?_, ?_, ?_, ?_⟩
  · intro i hi
    rw [hdix]
    show dirIdx s i < (s.store.set (dirIdx s (indexOf hash s key)) b').length
    rw [List.length_set]
    exact hbnd i hi
  · intro i hi
    rw [hdeq i hi]
    exact hdep i hi
  · intro i hi j hj hr
    rw [hdeq i hi] at hr
    rw [hdix, hdix]
    exact hal i hi j hj hr
  · intro i hi j hj hr
    rw [hdeq i hi]
    rw [hdix, hdix] at hr
    exact halc i hi j hj hr
  · intro j hj e he
    rw [hdeq j hj]
    by_cases hdj : dirIdx s j = dirIdx s (indexOf hash s key)
    · rw [hbEq j hdj] at he
      have hbj : bucketAt s j = bucketAt s (indexOf hash s key) := hsame j hj hdj
      rcases hlist' with ⟨l', hov, hbl⟩ | ⟨hov, hlt, hbl⟩
      · rw [hbl] at he
        have hkeys := (bucketOverwrite_keys hov).1
        have hkmem : e.1 ∈ (bucketAt s (indexOf hash s key)).list.map Prod.fst := by
          rw [← hkeys]
          exact List.mem_map_of_mem Prod.fst he
        rcases List.mem_map.mp hkmem with ⟨e0, he0, he0k⟩
        have hr0 := hres j hj e0 (by rw [hbj]; exact he0)
        rw [hbj, ← he0k]
        rw [hbj] at hr0
        exact hr0
      · rw [hbl] at he
        rcases List.mem_append.mp he with he2 | he2
        · have hr0 := hres j hj e (by rw [hbj]; exact he2)
          rw [hbj]
          rw [hbj] at hr0
          exact hr0
        · have he3 : e = (key, v) := by simpa using he2
          rw [he3, hbj]
          have h1 : hash key % 2 ^ (bucketAt s (indexOf hash s key)).depth
              = indexOf hash s key % 2 ^ (bucketAt s (indexOf hash s key)).depth :=
            hash_mod_indexOf hash s key _ (hdep _ hidx)
          have h2 := halc _ hidx j hj hdj.symm
          rw [h1, h2]
    · rw [hbNe j hdj] at he
      exact hres j hj e he
  · intro j hj
    by_cases hdj : dirIdx s j = dirIdx s (indexOf hash s key)
    · rw [hbEq j hdj]
      have hbj : bucketAt s j = bucketAt s (indexOf hash s key) := hsame j hj hdj
      have hcap0 := hcap j hj
      rw [hbj] at hcap0
      rcases hlist' with ⟨l', hov, hbl⟩ | ⟨hov, hlt, hbl⟩
      · refine ⟨by rw [hsize']; exact hcap0.1, ?_, ?_⟩
        · rw [hbl, (bucketOverwrite_keys hov).2]
          exact hcap0.2.1
        · rw [hbl, (bucketOverwrite_keys hov).1]
          exact hcap0.2.2
      · refine ⟨by rw [hsize']; exact hcap0.1, ?_, ?_⟩
        · rw [hbl, List.length_append]
          show (bucketAt s (indexOf hash s key)).list.length
              + ([((key : K), (v : V))] : List (K × V)).length ≤ s.bucket_size
          have hs1 := hcap0.1
          have hs2 : ([((key : K), (v : V))] : List (K × V)).length = 1 := rfl
          omega
        · rw [hbl, List.map_append, List.nodup_append]
          refine ⟨hcap0.2.2, by simp, ?_⟩
          intro a ha ha2
          have hknotin := bucketOverwrite_none_iff.mp hov
          have ha3 : a = key := by simpa using ha2
          rw [ha3] at ha
          exact hknotin ha
    · rw [hbNe j hdj]
      exact hcap j hj

theorem removeT_of_none {hash : K → Nat} {s : Table K V} {key : K}
    (h : bucketRemove (bucketAt s (indexOf hash s key)).list key = none) :
    removeT hash s key = (false, s) := by
  unfold removeT
  simp only [h]

theorem removeT_of_some {hash : K → Nat} {s : Table K V} {key : K} {l : List (K × V)}
    (h : bucketRemove (bucketAt s (indexOf hash s key)).list key = some l) :
    removeT hash s key =
      (true,
        { s with
          store :=
            s.store.set (dirIdx s (indexOf hash s key))
              ({ bucketAt s (indexOf hash s key) with list := l }) }) := by
  unfold removeT
  simp only [h]

theorem setBucket_inv (hash : K → Nat) (s : Table K V) (key : K) (b' : Bucket K V)
    (hInv : Inv hash s)
    (hdep' : b'.depth = (bucketAt s (indexOf hash s key)).depth)
    (hsize' : b'.size = (bucketAt s (indexOf hash s key)).size)
    (hres' : ∀ e ∈ b'.list, hash e.1 % 2 ^ (bucketAt s (indexOf hash s key)).depth
        = indexOf hash s key % 2 ^ (bucketAt s (indexOf hash s key)).depth)
    (hlen' : b'.list.length ≤ s.bucket_size)
    (hnd' : (b'.list.map Prod.fst).Nodup) :
    Inv hash { s with store := s.store.set (dirIdx s (indexOf hash s key)) b' } := by
  obtain ⟨hlen, hbnd, hdep, hal, halc, hres, hcap⟩ := hInv
  have hidx : indexOf hash s key < s.dir.length := by
    rw [hlen]
    exact indexOf_lt hash s key
  have hbi : dirIdx s (indexOf hash s key) < s.store.length := hbnd _ hidx
  have hdix : ∀ j : Nat,
      dirIdx { s with store := s.store.set (dirIdx s (indexOf hash s key)) b' } j
        = dirIdx s j := fun j => rfl
  have hbEq : ∀ j : Nat, dirIdx s j = dirIdx s (indexOf hash s key) →
      bucketAt { s with store := s.store.set (dirIdx s (indexOf hash s key)) b' } j = b' := by
    intro j hj
    unfold bucketAt
    rw [hdix, hj]
    exact getD_set_self hbi
  have hbNe : ∀ j : Nat, ¬ dirIdx s j = dirIdx s (indexOf hash s key) →
      bucketAt { s with store := s.store.set (dirIdx s (indexOf hash s key)) b' } j
        = bucketAt s j := by
    intro j hj
    unfold bucketAt
    rw [hdix]
    exact getD_set_ne (fun he => hj he.symm)
  have hsame : ∀ j : Nat, dirIdx s j = dirIdx s (indexOf hash s key) →
      bucketAt s j = bucketAt s (indexOf hash s key) := by
    intro j hdj
    unfold bucketAt
    rw [hdj]
  have hdeq : ∀ j : Nat,
      (bucketAt { s with store := s.store.set (dirIdx s (indexOf hash s key)) b' } j).depth
        = (bucketAt s j).depth := by
    intro j
    by_cases hdj : dirIdx s j = dirIdx s (indexOf hash s key)
    · rw [hbEq j hdj, hsame j hdj, hdep']
    · rw [hbNe j hdj]
  refine ⟨hlen, ?_, ?_, ?_, ?_, ?_, ?_⟩
  · intro i hi
    rw [hdix]
    show dirIdx s i < (s.store.set (dirIdx s (indexOf hash s key)) b').length
    rw [List.length_set]
    exact hbnd i hi
  · intro i hi
    rw [hdeq i]
    exact hdep i hi
  · intro i hi j hj hr
    rw [hdeq i] at hr
    rw [hdix, hdix]
    exact hal i hi j hj hr
  · intro i hi j hj hr
    rw [hdeq i]
    rw [hdix, hdix] at hr
    exact halc i hi j hj hr
  · intro j hj e he
    rw [hdeq j]
    by_cases hdj : dirIdx s j = dirIdx s (indexOf hash s key)
    · rw [hbEq j hdj] at he
      have hbj : bucketAt s j = bucketAt s (indexOf hash s key) := hsame j hdj
      have h1 := hres' e he
      have h2 := halc _ hidx j hj hdj.symm
      rw [hbj, h1, h2]
    · rw [hbNe j hdj] at he
      exact hres j hj e he
  · intro j hj
    by_cases hdj : dirIdx s j = dirIdx s (indexOf hash s key)
    · rw [hbEq j hdj]
      have hbj : bucketAt s j = bucketAt s (indexOf hash s key) := hsame j hdj
      have hcap0 := hcap j hj
      rw [hbj] at hcap0
      exact ⟨by rw [hsize']; exact hcap0.1, hlen', hnd'⟩
    · rw [hbNe j hdj]
      exact hcap j hj

theorem removeT_inv (hash : K → Nat) (s : Table K V) (key : K) (hInv : Inv hash s) :
    Inv hash (removeT hash s key).2 := by
  cases hr : bucketRemove (bucketAt s (indexOf hash s key)).list key with
  | none =>
      rw [removeT_of_none hr]
      exact hInv
  | some l =>
      rw [removeT_of_some hr]
      have hidx : indexOf hash s key < s.dir.length := by
        rw [hInv.1]
        exact indexOf_lt hash s key
      have hsub := bucketRemove_sublist hr
      apply setBucket_inv hash s key ({ bucketAt s (indexOf hash s key) with list := l })
        hInv rfl rfl
      · intro e he
        exact hInv.2.2.2.2.2.1 _ hidx e (hsub.mem he)
      · calc l.length ≤ (bucketAt s (indexOf hash s key)).list.length := hsub.length_le
          _ ≤ s.bucket_size := (hInv.2.2.2.2.2.2 _ hidx).2.1
      · exact List.Nodup.sublist (List.Sublist.map Prod.fst hsub)
          (hInv.2.2.2.2.2.2 _ hidx).2.2

theorem insertInternal_succ (hash : K → Nat) (fuel : Nat) (s : Table K V) (key : K)
    (value : V) :
    insertInternal hash (fuel + 1) s key value =
      (match bucketInsert (bucketAt s (indexOf hash s key)) key value with
       | (true, b') => some { s with store := s.store.set (dirIdx s (indexOf hash s key)) b' }
       | (false, _) =>
          insertInternal hash fuel (splitStep hash s (indexOf hash s key)) key value) := rfl

theorem insertInternal_inv {hash : K → Nat} {fuel : Nat} {s s' : Table K V} {key : K}
    {value : V} (h : insertInternal hash fuel s key value = some s') (hInv : Inv hash s) :
    Inv hash s' := by
  induction fuel generalizing s with
  | zero => cases h
  | succ n ih =>
      rw [insertInternal_succ] at h
      cases hbi : bucketInsert (bucketAt s (indexOf hash s key)) key value with
      | mk success b2 =>
          rw [hbi] at h
          cases success
          · exact ih h (splitStep_inv hash s _ hInv
              (by rw [hInv.1]; exact indexOf_lt hash s key))
          · have hs2 : { s with store := s.store.set (dirIdx s (indexOf hash s key)) b2 } = s' :=
              Option.some.inj h
            rw [← hs2]
            exact insertStep_inv hash s key value hInv hbi

theorem insertInternal_find_self {hash : K → Nat} {fuel : Nat} {s s' : Table K V} {key : K}
    {value : V} (h : insertInternal hash fuel s key value = some s') (hInv : Inv hash s) :
    findT hash s' key = some value := by
  induction fuel generalizing s with
  | zero => cases h
  | succ n ih =>
      rw [insertInternal_succ] at h
      cases hbi : bucketInsert (bucketAt s (indexOf hash s key)) key value with
      | mk success b2 =>
          rw [hbi] at h
          cases success
          · exact ih h (splitStep_inv hash s _ hInv
              (by rw [hInv.1]; exact indexOf_lt hash s key))
          · have hs2 : { s with store := s.store.set (dirIdx s (indexOf hash s key)) b2 } = s' :=
              Option.some.inj h
            have hidx : indexOf hash s key < s.dir.length := by
              rw [hInv.1]
              exact indexOf_lt hash s key
            have hbi2 : dirIdx s (indexOf hash s key) < s.store.length := hInv.2.1 _ hidx
            rw [← hs2]
            have hsame : indexOf hash
                { s with store := s.store.set (dirIdx s (indexOf hash s key)) b2 } key
                = indexOf hash s key := rfl
            unfold findT
            rw [hsame]
            have hb2 : bucketAt
                { s with store := s.store.set (dirIdx s (indexOf hash s key)) b2 }
                (indexOf hash s key) = b2 := by
              unfold bucketAt
              show (s.store.set (dirIdx s (indexOf hash s key)) b2).getD
                  (dirIdx s (indexOf hash s key)) _ = b2
              exact getD_set_self hbi2
            rw [hb2]
            obtain ⟨_, _, hlist⟩ := bucketInsert_true hbi
            rcases hlist with ⟨l', hov, hbl⟩ | ⟨hov, hlt, hbl⟩
            · rw [hbl]
              exact bucketOverwrite_find hov
            · rw [hbl]
              have hnone : bucketFind (bucketAt s (indexOf hash s key)).list key = none := by
                rw [bucketFind_eq_none_iff]
                exact bucketOverwrite_none_iff.mp hov
              rw [bucketFind_append_of_none hnone]
              simp [bucketFind]

theorem insertInternal_find_other {hash : K → Nat} {fuel : Nat} {s s' : Table K V}
    {key : K} {value : V} {k' : K} (hne : k' ≠ key)
    (h : insertInternal hash fuel s key value = some s') (hInv : Inv hash s) :
    findT hash s' k' = findT hash s k' := by
  induction fuel generalizing s with
  | zero => cases h
  | succ n ih =>
      rw [insertInternal_succ] at h
      cases hbi : bucketInsert (bucketAt s (indexOf hash s key)) key value with
      | mk success b2 =>
          rw [hbi] at h
          cases success
          · have hidx : indexOf hash s key < s.dir.length := by
              rw [hInv.1]
              exact indexOf_lt hash s key
            rw [ih h (splitStep_inv hash s _ hInv hidx)]
            exact splitStep_find hash s _ hInv hidx k'
          · have hs2 : { s with store := s.store.set (dirIdx s (indexOf hash s key)) b2 } = s' :=
              Option.some.inj h
            have hidx : indexOf hash s key < s.dir.length := by
              rw [hInv.1]
              exact indexOf_lt hash s key
            have hbib : dirIdx s (indexOf hash s key) < s.store.length := hInv.2.1 _ hidx
            rw [← hs2]
            have hsame : indexOf hash
                { s with store := s.store.set (dirIdx s (indexOf hash s key)) b2 } k'
                = indexOf hash s k' := rfl
            unfold findT
            rw [hsame]
            by_cases hdj : dirIdx s (indexOf hash s k') = dirIdx s (indexOf hash s key)
            · have hb2 : bucketAt
                  { s with store := s.store.set (dirIdx s (indexOf hash s key)) b2 }
                  (indexOf hash s k') = b2 := by
                unfold bucketAt
                show (s.store.set (dirIdx s (indexOf hash s key)) b2).getD
                    (dirIdx s (indexOf hash s k')) _ = b2
                rw [hdj]
                exact getD_set_self hbib
              have hold : bucketAt s (indexOf hash s k') = bucketAt s (indexOf hash s key) := by
                unfold bucketAt
                rw [hdj]
              rw [hb2, hold]
              obtain ⟨_, _, hlist⟩ := bucketInsert_true hbi
              rcases hlist with ⟨l', hov, hbl⟩ | ⟨hov, hlt, hbl⟩
              · rw [hbl]
                exact bucketOverwrite_find_ne hne hov
              · rw [hbl]
                exact bucketFind_append_ne hne
            · have hb2 : bucketAt
                  { s with store := s.store.set (dirIdx s (indexOf hash s key)) b2 }
                  (indexOf hash s k') = bucketAt s (indexOf hash s k') := by
                unfold bucketAt
                show (s.store.set (dirIdx s (indexOf hash s key)) b2).getD
                    (dirIdx s (indexOf hash s k')) _ = _
                exact getD_set_ne (fun he => hdj he.symm)
              rw [hb2]

theorem removeT_true_iff (hash : K → Nat) (s : Table K V) (key : K) :
    (removeT hash s key).1 = true ↔ ¬ findT hash s key = none := by
  cases hr : bucketRemove (bucketAt s (indexOf hash s key)).list key with
  | none =>
      rw [removeT_of_none hr]
      have h1 := bucketRemove_none_iff.mp hr
      have h2 : findT hash s key = none := by
        unfold findT
        rw [bucketFind_eq_none_iff]
        exact h1
      simp [h2]
  | some l =>
      rw [removeT_of_some hr]
      have h1 : key ∈ (bucketAt s (indexOf hash s key)).list.map Prod.fst := by
        by_contra h2
        rw [← bucketRemove_none_iff] at h2
        rw [h2] at hr
        cases hr
      have h2 : ¬ findT hash s key = none := by
        unfold findT
        rw [bucketFind_eq_none_iff]
        simpa using h1
      simp [h2]

theorem removeT_find_self (hash : K → Nat) (s : Table K V) (key : K) (hInv : Inv hash s) :
    findT hash (removeT hash s key).2 key = none := by
  cases hr : bucketRemove (bucketAt s (indexOf hash s key)).list key with
  | none =>
      rw [removeT_of_none hr]
      unfold findT
      rw [bucketFind_eq_none_iff]
      exact bucketRemove_none_iff.mp hr
  | some l =>
      rw [removeT_of_some hr]
      have hidx : indexOf hash s key < s.dir.length := by
        rw [hInv.1]
        exact indexOf_lt hash s key
      have hbib : dirIdx s (indexOf hash s key) < s.store.length := hInv.2.1 _ hidx
      unfold findT
      have hb2 : bucketAt
          { s with
            store :=
              s.store.set (dirIdx s (indexOf hash s key))
                ({ bucketAt s (indexOf hash s key) with list := l }) }
          (indexOf hash s key) = { bucketAt s (indexOf hash s key) with list := l } := by
        unfold bucketAt
        exact getD_set_self hbib
      rw [show indexOf hash
          { s with
            store :=
              s.store.set (dirIdx s (indexOf hash s key))
                ({ bucketAt s (indexOf hash s key) with list := l }) } key
          = indexOf hash s key from rfl, hb2]
      exact bucketRemove_find_self (hInv.2.2.2.2.2.2 _ hidx).2.2 hr

theorem removeT_find_other (hash : K → Nat) (s : Table K V) (key k' : K)
    (hInv : Inv hash s) (hne : k' ≠ key) :
    findT hash (removeT hash s key).2 k' = findT hash s k' := by
  cases hr : bucketRemove (bucketAt s (indexOf hash s key)).list key with
  | none =>
      rw [removeT_of_none hr]
  | some l =>
      rw [removeT_of_some hr]
      have hidx : indexOf hash s key < s.dir.length := by
        rw [hInv.1]
        exact indexOf_lt hash s key
      have hbib : dirIdx s (indexOf hash s key) < s.store.length := hInv.2.1 _ hidx
      unfold findT
      rw [show indexOf hash
          { s with
            store :=
              s.store.set (dirIdx s (indexOf hash s key))
                ({ bucketAt s (indexOf hash s key) with list := l }) } k'
          = indexOf hash s k' from rfl]
      by_cases hdj : dirIdx s (indexOf hash s k') = dirIdx s (indexOf hash s key)
      · have hb2 : bucketAt
            { s with
              store :=
                s.store.set (dirIdx s (indexOf hash s key))
                  ({ bucketAt s (indexOf hash s key) with list := l }) }
            (indexOf hash s k') = { bucketAt s (indexOf hash s key) with list := l } := by
          unfold bucketAt
          show (s.store.set (dirIdx s (indexOf hash s key)) _).getD
              (dirIdx s (indexOf hash s k')) _ = _
          rw [hdj]
          exact getD_set_self hbib
        have hold : bucketAt s (indexOf hash s k') = bucketAt s (indexOf hash s key) := by
          unfold bucketAt
          rw [hdj]
        rw [hb2, hold]
        exact bucketRemove_find_ne hne hr
      · have hb2 : bucketAt
            { s with
              store :=
                s.store.set (dirIdx s (indexOf hash s key))
                  ({ bucketAt s (indexOf hash s key) with list := l }) }
            (indexOf hash s k') = bucketAt s (indexOf hash s k') := by
          unfold bucketAt
          show (s.store.set (dirIdx s (indexOf hash s key)) _).getD
              (dirIdx s (indexOf hash s k')) _ = _
          exact getD_set_ne (fun he => hdj he.symm)
        rw [hb2]

theorem reachH_inv {hash : K → Nat} {s : Table K V} (h : ReachH hash s) : Inv hash s := by
  induction h with
  | init sz => exact newTable_inv hash sz
  | insert s s' fuel key v _ hins ih => exact insertInternal_inv hins ih
  | remove s key _ ih => exact removeT_inv hash s key ih

theorem le_foldr_max (l : List Nat) (i : Nat) :
    i ≤ l.foldr max i ∧ ∀ x ∈ l, x ≤ l.foldr max i := by
  induction l with
  | nil => exact ⟨Nat.le_refl i, by intro x hx; cases hx⟩
  | cons a t ih =>
      refine ⟨Nat.le_trans ih.1 (Nat.le_max_right a _), ?_⟩
      intro x hx
      rcases List.mem_cons.mp hx with hx | hx
      · rw [hx]
        exact Nat.le_max_left a _
      · exact Nat.le_trans (ih.2 x hx) (Nat.le_max_right a _)

theorem insert_progress (hash : K → Nat) (hinj : Function.Injective hash) :
    ∀ n : Nat, ∀ s : Table K V, ∀ key : K, ∀ value : V, Inv hash s →
    1 ≤ s.bucket_size →
    hash key < 2 ^ ((bucketAt s (indexOf hash s key)).depth + n) →
    (∀ e ∈ (bucketAt s (indexOf hash s key)).list,
      hash e.1 < 2 ^ ((bucketAt s (indexOf hash s key)).depth + n)) →
    (insertInternal hash (n + 1) s key value).isSome = true := by
  intro n
  induction n with
  | zero =>
      intro s key value hInv hsz hkey hents
      rw [insertInternal_succ]
      cases hbi : bucketInsert (bucketAt s (indexOf hash s key)) key value with
      | mk success b2 =>
          cases success
          · exfalso
            obtain ⟨hov, hfull⟩ := bucketInsert_false hbi
            have hidx : indexOf hash s key < s.dir.length := by
              rw [hInv.1]
              exact indexOf_lt hash s key
            have hcap0 := hInv.2.2.2.2.2.2 _ hidx
            have hlenpos : 0 < (bucketAt s (indexOf hash s key)).list.length := by
              have h1 := hcap0.1
              omega
            rcases List.exists_mem_of_length_pos hlenpos with ⟨e, he⟩
            have h1 := hInv.2.2.2.2.2.1 _ hidx e he
            have h2 : hash key % 2 ^ (bucketAt s (indexOf hash s key)).depth
                = indexOf hash s key % 2 ^ (bucketAt s (indexOf hash s key)).depth :=
              hash_mod_indexOf hash s key _ (hInv.2.2.1 _ hidx)
            have h3 : hash e.1 % 2 ^ (bucketAt s (indexOf hash s key)).depth
                = hash key % 2 ^ (bucketAt s (indexOf hash s key)).depth := by
              rw [h1, h2]
            have hb1 : hash e.1 < 2 ^ (bucketAt s (indexOf hash s key)).depth := by
              have := hents e he
              simpa using this
            have hb2 : hash key < 2 ^ (bucketAt s (indexOf hash s key)).depth := by
              simpa using hkey
            rw [Nat.mod_eq_of_lt hb1, Nat.mod_eq_of_lt hb2] at h3
            have hek : e.1 = key := hinj h3
            have hmem : key ∈ (bucketAt s (indexOf hash s key)).list.map Prod.fst := by
              have h4 : e.1 ∈ (bucketAt s (indexOf hash s key)).list.map Prod.fst :=
                List.mem_map_of_mem Prod.fst he
              rw [hek] at h4
              exact h4
            exact (bucketOverwrite_none_iff.mp hov) hmem
          · rfl
  | succ n ih =>
      intro s key value hInv hsz hkey hents
      rw [insertInternal_succ]
      cases hbi : bucketInsert (bucketAt s (indexOf hash s key)) key value with
      | mk success b2 =>
          cases success
          · have hidx : indexOf hash s key < s.dir.length := by
              rw [hInv.1]
              exact indexOf_lt hash s key
            obtain ⟨htd, htsub, htbs⟩ := splitStep_target hash s key hInv
            have harith : (bucketAt (splitStep hash s (indexOf hash s key))
                (indexOf hash (splitStep hash s (indexOf hash s key)) key)).depth + n
                = (bucketAt s (indexOf hash s key)).depth + (n + 1) := by
              rw [htd]
              omega
            apply ih (splitStep hash s (indexOf hash s key)) key value
              (splitStep_inv hash s _ hInv hidx)
            · rw [htbs]
              exact hsz
            · rw [harith]
              exact hkey
            · intro e he
              rw [harith]
              exact hents e (htsub.mem he)
          · rfl

theorem getD_mem_or {A : Type} (l : List A) (n : Nat) (d : A) :
    l.getD n d = d ∨ l.getD n d ∈ l := by
  by_cases h : n < l.length
  · right
    rw [List.getD_eq_getElem?_getD, List.getElem?_eq_getElem h]
    exact List.getElem_mem h
  · left
    rw [List.getD_eq_getElem?_getD, List.getElem?_eq_none (by omega)]
    rfl

theorem insert_cap0_none (hash : K → Nat) :
    ∀ fuel : Nat, ∀ s : Table K V, ∀ key : K, ∀ v : V, s.bucket_size = 0 →
    (∀ b ∈ s.store, b.size = 0 ∧ b.list = []) →
    insertInternal hash fuel s key v = none := by
  intro fuel
  induction fuel with
  | zero => intro s key v _ _; rfl
  | succ n ih =>
      intro s key v hbs hstores
      have hb : (bucketAt s (indexOf hash s key)).size = 0
          ∧ (bucketAt s (indexOf hash s key)).list = [] := by
        unfold bucketAt
        rcases getD_mem_or s.store (dirIdx s (indexOf hash s key)) ⟨0, 0, []⟩ with h | h
        · rw [h]
          exact ⟨rfl, rfl⟩
        · exact hstores _ h
      rw [insertInternal_succ]
      cases hbi : bucketInsert (bucketAt s (indexOf hash s key)) key v with
      | mk success b2 =>
          cases success
          · -- the failed insert recurses on the split state, which is again all-empty
            apply ih
            · show s.bucket_size = 0
              exact hbs
            · intro b hbm
              have hbm2 := hbm
              unfold splitStep at hbm2
              rcases List.mem_append.mp hbm2 with hmem | hmem
              · by_cases hgd : s.global_depth = (bucketAt s (indexOf hash s key)).depth
                · rw [if_pos hgd] at hmem
                  exact hstores b hmem
                · rw [if_neg hgd] at hmem
                  exact hstores b hmem
              · rcases List.mem_cons.mp hmem with hmem2 | hmem2
                · rw [hmem2]
                  refine ⟨hbs, ?_⟩
                  show List.filter _ (bucketAt s (indexOf hash s key)).list = []
                  rw [hb.2]
                  rfl
                · rcases List.mem_cons.mp hmem2 with hmem3 | hmem3
                  · rw [hmem3]
                    refine ⟨hbs, ?_⟩
                    show List.filter _ (bucketAt s (indexOf hash s key)).list = []
                    rw [hb.2]
                    rfl
                  · cases hmem3
          · exfalso
            obtain ⟨_, _, hlist⟩ := bucketInsert_true hbi
            rcases hlist with ⟨l', hov, _⟩ | ⟨_, hlt, _⟩
            · rw [hb.2] at hov
              cases hov
            · rw [hb.1, hb.2] at hlt
              exact absurd hlt (by simp)

/-- Claim C3: after any sequence of inserts and removes from a fresh table,
the directory has exactly `2 ^ global_depth` slots, every referenced bucket
has `local_depth <= global_depth`, two slots agreeing on the low
`local_depth` bits of the first reference the same bucket, and no bucket
holds more than the configured capacity of entries. -/
theorem depth_claim (hash : K → Nat) (s : Table K V) (hs : ReachH hash s) :
    s.dir.length = 2 ^ s.global_depth ∧
    (∀ i < s.dir.length, (bucketAt s i).depth ≤ s.global_depth) ∧
    (∀ i < s.dir.length, ∀ j < s.dir.length,
      i % 2 ^ (bucketAt s i).depth = j % 2 ^ (bucketAt s i).depth →
        dirIdx s i = dirIdx s j) ∧
    (∀ i < s.dir.length, (bucketAt s i).list.length ≤ s.bucket_size) := by
  obtain ⟨hlen, hbnd, hdep, hal, halc, hres, hcap⟩ := reachH_inv hs
  exact ⟨hlen, hdep, hal, fun i hi => (hcap i hi).2.1⟩

theorem depth_claim_witness :
    (newTable Nat Nat 2).dir.length = 2 ^ (newTable Nat Nat 2).global_depth :=
  (depth_claim (fun n => n) (newTable Nat Nat 2) (ReachH.init 2)).1

/-- Claim C2: on every reachable table, a completed `Insert(k, v)` makes
`Find(k)` return `v`; inserts and removes of other keys do not disturb it;
`Remove(k)` returns true exactly when `k` is present and afterwards
`Find(k)` fails; and inserting a present key overwrites its value in place
without any split (directory, global depth and bucket count unchanged). -/
theorem hash_roundtrip_claim (hash : K → Nat) (s : Table K V) (hs : ReachH hash s) :
    (∀ fuel (s' : Table K V) key value,
        insertInternal hash fuel s key value = some s' → findT hash s' key = some value) ∧
    (∀ fuel (s' : Table K V) key value k', k' ≠ key →
        insertInternal hash fuel s key value = some s' →
        findT hash s' k' = findT hash s k') ∧
    (∀ key k', k' ≠ key → findT hash (removeT hash s key).2 k' = findT hash s k') ∧
    (∀ key, (removeT hash s key).1 = true ↔ ¬ findT hash s key = none) ∧
    (∀ key, findT hash (removeT hash s key).2 key = none) ∧
    (∀ key value w, findT hash s key = some w →
        ∃ s' : Table K V, insertInternal hash 1 s key value = some s' ∧
          s'.global_depth = s.global_depth ∧ s'.dir = s.dir ∧
          s'.num_buckets = s.num_buckets ∧ findT hash s' key = some value) := by
  have hInv := reachH_inv hs
  refine ⟨?_, ?_, ?_, ?_, ?_, ?_⟩
  · intro fuel s' key value h
    exact insertInternal_find_self h hInv
  · intro fuel s' key value k' hne h
    exact insertInternal_find_other hne h hInv
  · intro key k' hne
    exact removeT_find_other hash s key k' hInv hne
  · intro key
    exact removeT_true_iff hash s key
  · intro key
    exact removeT_find_self hash s key hInv
  · intro key value w hfind
    have hkmem : key ∈ (bucketAt s (indexOf hash s key)).list.map Prod.fst := by
      by_contra hk
      have h0 := bucketFind_eq_none_iff.mpr hk
      unfold findT at hfind
      rw [h0] at hfind
      cases hfind
    obtain ⟨l', hov⟩ : ∃ l', bucketOverwrite (bucketAt s (indexOf hash s key)).list key value
        = some l' := by
      cases ho : bucketOverwrite (bucketAt s (indexOf hash s key)).list key value with
      | none => exact absurd hkmem (bucketOverwrite_none_iff.mp ho)
      | some l => exact ⟨l, rfl⟩
    have hbi : bucketInsert (bucketAt s (indexOf hash s key)) key value
        = (true, { bucketAt s (indexOf hash s key) with list := l' }) := by
      unfold bucketInsert
      rw [hov]
    have hins : insertInternal hash 1 s key value
        = some { s with
            store :=
              s.store.set (dirIdx s (indexOf hash s key))
                ({ bucketAt s (indexOf hash s key) with list := l' }) } := by
      rw [show (1 : Nat) = 0 + 1 from rfl, insertInternal_succ, hbi]
    refine ⟨_, hins, rfl, rfl, rfl, ?_⟩
    exact insertInternal_find_self hins hInv

theorem hash_roundtrip_claim_witness :
    (removeT (fun n => n) (newTable Nat Nat 2) 1).1 = false := by
  have h := (hash_roundtrip_claim (fun n => n) (newTable Nat Nat 2) (ReachH.init 2)).2.2.2.1 1
  have hf : findT (fun n => n) (newTable Nat Nat 2) 1 = none := rfl
  cases hres : (removeT (fun n => n) (newTable Nat Nat 2) 1).1
  · rfl
  · exact absurd hf (h.mp hres)

/-- Claim C7 counterexample: on a table constructed with bucket capacity 0 —
a value the constructor accepts — no amount of split-and-retry ever
completes `Insert`, because every bucket is permanently full; the claim
that `Insert` always terminates on every reachable state is therefore
false at this input. -/
theorem insert_nontermination_counterexample :
    ¬ InsertTerminates (fun n => n) (newTable Nat Nat 0) 0 0 := by
  intro h
  obtain ⟨fuel, hf⟩ := h
  rw [insert_cap0_none (fun n => n) fuel (newTable Nat Nat 0) 0 0 rfl] at hf
  · cases hf
  · intro b hb
    have hb0 : b = ⟨0, 0, []⟩ := by simpa [newTable] using hb
    rw [hb0]
    exact ⟨rfl, rfl⟩

/-- Claim C7 (amended): on every reachable table whose configured bucket
capacity is at least 1, and with a hash that is injective on keys (as is
`std::hash` on the repository's integer and pointer instantiations),
`Insert` terminates — some number of directory doublings and bucket splits
suffices — and afterwards `Find(key)` returns the inserted value. -/
theorem insert_total_claim (hash : K → Nat) (hinj : Function.Injective hash)
    (s : Table K V) (hs : ReachH hash s) (hsz : 1 ≤ s.bucket_size) (key : K) (value : V) :
    ∃ fuel : Nat, ∃ s' : Table K V, insertInternal hash fuel s key value = some s' ∧
      findT hash s' key = some value := by
  have hInv := reachH_inv hs
  have hbase := le_foldr_max ((bucketAt s (indexOf hash s key)).list.map (fun e => hash e.1))
    (hash key)
  set B := ((bucketAt s (indexOf hash s key)).list.map (fun e => hash e.1)).foldr max
    (hash key) with hB
  have hkb : hash key < 2 ^ ((bucketAt s (indexOf hash s key)).depth + (B + 1)) := by
    have h1 : B < 2 ^ B := Nat.lt_two_pow B
    have h2 : (2 : Nat) ^ B ≤ 2 ^ ((bucketAt s (indexOf hash s key)).depth + (B + 1)) :=
      Nat.pow_le_pow_right (by omega) (by omega)
    have h3 := hbase.1
    omega
  have heb : ∀ e ∈ (bucketAt s (indexOf hash s key)).list,
      hash e.1 < 2 ^ ((bucketAt s (indexOf hash s key)).depth + (B + 1)) := by
    intro e he
    have h1 : hash e.1 ≤ B :=
      hbase.2 (hash e.1) (List.mem_map_of_mem (fun e => hash e.1) he)
    have h2 : B < 2 ^ B := Nat.lt_two_pow B
    have h3 : (2 : Nat) ^ B ≤ 2 ^ ((bucketAt s (indexOf hash s key)).depth + (B + 1)) :=
      Nat.pow_le_pow_right (by omega) (by omega)
    omega
  have hprog := insert_progress hash hinj (B + 1) s key value hInv hsz hkb heb
  obtain ⟨s', hs'⟩ := Option.isSome_iff_exists.mp hprog
  exact ⟨B + 2, s', hs', insertInternal_find_self hs' hInv⟩

theorem insert_total_claim_witness :
    ∃ fuel : Nat, ∃ s' : Table Nat Nat,
      insertInternal (fun n => n) fuel (newTable Nat Nat 2) 7 3 = some s' ∧
      findT (fun n => n) s' 7 = some 3 :=
  insert_total_claim (fun n => n) (fun a b h => h) (newTable Nat Nat 2)
    (ReachH.init 2) (by decide) 7 3

/-- Claim C8 counterexample: with bucket capacity 2 and the keys 1, 3, 5 —
whose (identity) hashes all collide on bit 0 while bit 1 distinguishes 1
from 3 — the third insert drives the global depth to 2 with three buckets,
not to 1 with two buckets as claimed: one split on bit 0 cannot separate
keys that agree on bit 0. -/
theorem c8_counterexample :
    (1 % 2 = 1 ∧ 3 % 2 = 1 ∧ 5 % 2 = 1) ∧ (1 / 2 % 2 = 0 ∧ 3 / 2 % 2 = 1) ∧
    c8run.map (fun s => (s.global_depth, s.num_buckets)) = some (2, 3) ∧
    ¬ c8run.map (fun s => (s.global_depth, s.num_buckets)) = some (1, 2) := by
  refine ⟨by decide, by decide, rfl, by decide⟩

/-- Claim C8 (amended): in that scenario the third insert leaves global
depth 2 and three buckets, each bucket's entries agreeing with their slot
on the low `local_depth` bits of their hash, and no bucket over capacity. -/
theorem c8_amended :
    ∃ s : Table Nat Nat, c8run = some s ∧ s.global_depth = 2 ∧ s.num_buckets = 3 ∧
      (∀ i < s.dir.length, ∀ e ∈ (bucketAt s i).list,
        e.1 % 2 ^ (bucketAt s i).depth = i % 2 ^ (bucketAt s i).depth) ∧
      (∀ i < s.dir.length, (bucketAt s i).list.length ≤ 2) := by
  refine ⟨⟨2, 2, 3,
    [⟨2, 0, [(1, 10), (3, 30)]⟩, ⟨2, 1, []⟩, ⟨2, 1, [(1, 10), (3, 30)]⟩,
     ⟨2, 2, [(1, 10), (5, 50)]⟩, ⟨2, 2, [(3, 30)]⟩],
    [1, 3, 1, 4]⟩, rfl, rfl, rfl, ?_, ?_⟩
  · decide
  · decide

end ExtHash

namespace LruK

theorem evictFull_found_none {s : Replacer} (h : (evictFull s).found = none) :
    (evictFull s).state = s := by
  revert h
  unfold evictFull
  split
  · intro _
    rfl
  · split
    · intro _
      rfl
    · intro h
      exact absurd h (by simp)
    · split
      · intro _
        rfl
      · intro h
        exact absurd h (by simp)
      · intro _
        rfl

end LruK

/-- Claim C9: every mutating operation of both components either completes
fully or changes nothing: a failed `Evict`, a false-returning hash-table
`Remove`, and every early-return path of the tracker operations
(out-of-range, unknown frame, non-evictable frame) leave the entire
observable state exactly as it was. -/
theorem atomic_noop_claim :
    (∀ s : LruK.Replacer, (LruK.evictFull s).found = none →
        (LruK.evictFull s).state = s ∧ LruK.evictL s = (none, s)) ∧
    (∀ (K V : Type) [DecidableEq K] (hash : K → Nat) (s : ExtHash.Table K V)
        (key : K), (ExtHash.removeT hash s key).1 = false →
        (ExtHash.removeT hash s key).2 = s) ∧
    (∀ (s : LruK.Replacer) (id : Nat), s.replacer_size < id →
        LruK.recordAccess s id = s ∧ (∀ f, LruK.setEvictable s id f = s) ∧
        LruK.removeL s id = s) ∧
    (∀ (s : LruK.Replacer) (id : Nat) (f : Bool), LruK.lookupE id s.entities = none →
        LruK.setEvictable s id f = s) ∧
    (∀ (s : LruK.Replacer) (id : Nat), LruK.lookupE id s.entities = none →
        LruK.removeL s id = s) ∧
    (∀ (s : LruK.Replacer) (id : Nat) (e : LruK.FrameEntity),
        LruK.lookupE id s.entities = some e → e.evictable = false →
        LruK.removeL s id = s) := by
  refine ⟨?_, ?_, ?_, ?_, ?_, ?_⟩
  · intro s h
    refine ⟨LruK.evictFull_found_none h, ?_⟩
    unfold LruK.evictL
    rw [h, LruK.evictFull_found_none h]
  · intro K V instK hash s key h
    cases hr : ExtHash.bucketRemove
        (ExtHash.bucketAt s (ExtHash.indexOf hash s key)).list key with
    | none => rw [ExtHash.removeT_of_none hr]
    | some l =>
        rw [ExtHash.removeT_of_some hr] at h
        cases h
  · intro s id h
    exact ⟨LruK.recordAccess_oob h, fun f => LruK.setEvictable_oob f h, LruK.removeL_oob h⟩
  · intro s id f h
    exact LruK.setEvictable_unknown f h
  · intro s id h
    exact LruK.removeL_unknown h
  · intro s id e hl he
    unfold LruK.removeL
    split
    · rfl
    · rw [hl]
      simp [he]

theorem atomic_noop_claim_witness :
    ((LruK.evictFull (LruK.initL 1 1)).state = LruK.initL 1 1 ∧
      LruK.evictL (LruK.initL 1 1) = (none, LruK.initL 1 1)) ∧
    (ExtHash.removeT (fun n => n) (ExtHash.newTable Nat Nat 2) 0).2
      = ExtHash.newTable Nat Nat 2 ∧
    LruK.recordAccess (LruK.initL 3 2) 4 = LruK.initL 3 2 :=
  ⟨atomic_noop_claim.1 (LruK.initL 1 1) rfl,
   atomic_noop_claim.2.1 Nat Nat (fun n => n)
     (ExtHash.newTable Nat Nat 2) 0 rfl,
   (atomic_noop_claim.2.2.1 (LruK.initL 3 2) 4 (by decide)).1⟩
